import Mathlib

/-!
# Verification of `deno_streaming_zip`

A shallow embedding of the streaming-zip library (writer `src/write.ts`,
reader `src/read.ts`, partial reader `src/unnamed/part_001`, exact-bytes
transform `src/stream_utils/exact_bytes_transform_stream.ts`, extra-field
codec `src/unnamed/part_004`) into Lean, together with proofs and
refutations of the specification's claims.

Bytes are modelled as `Nat` (always `< 256` on every wire the writer
produces), byte strings as `List Nat`.  JavaScript `DataView` little-endian
setters/getters become `u16LE`/`u32LE`/`u64LE` and `getU16`/`getU32`/`getU64`.
Asynchronous streaming code becomes explicit state passing; fallible code
returns `Except ZErr`.
-/

/-- The error kinds of the library (design-level names from the spec's §7;
each corresponds to a distinct `throw` site in the source). -/
inductive ZErr where
  | unexpectedEnd            -- "stream ended unexpectedly" / "Stream completed early"
  | badSignature             -- "Bad signature. ..."
  | unsupportedVersion       -- "File requires to high of version to extract"
  | encryptedUnsupported     -- "Encrypted files are not supported"
  | dataDescriptorUnsupported -- "read() does not support zip files using data descriptors"
  | patchUnsupported         -- "Patch data is not supported"
  | unknownCompressionMethod -- "Unknown compression method"
  | invalidExtraField        -- "Invalid extra field"
  | rangeOutOfBounds         -- DataView access outside of the record's bounds
  | bodyAlreadyUsed          -- "body already used"
  | bodyNotConsumed          -- "The body property of entry must be streamed or autodrained ..."
  | byteSizeExceeded         -- RangeError "Exceeded byte size limit of ..."
  | byteSizeShortfall        -- RangeError "Did not receive expected size of ..."
  | filenameTooLong          -- "Filename is too long"
  deriving DecidableEq, Repr

/-! ## Little-endian byte codecs (DataView setters/getters) -/

/-- `DataView.setUint16(_, n, true)` on a zeroed buffer: the two
little-endian bytes of `n mod 2^16`. -/
def u16LE (n : Nat) : List Nat := [n % 256, n / 256 % 256]

/-- `DataView.setUint32(_, n, true)`: four little-endian bytes. -/
def u32LE (n : Nat) : List Nat :=
  [n % 256, n / 256 % 256, n / 256 ^ 2 % 256, n / 256 ^ 3 % 256]

/-- `DataView.setBigUint64(_, n, true)`: eight little-endian bytes. -/
def u64LE (n : Nat) : List Nat :=
  [n % 256, n / 256 % 256, n / 256 ^ 2 % 256, n / 256 ^ 3 % 256,
   n / 256 ^ 4 % 256, n / 256 ^ 5 % 256, n / 256 ^ 6 % 256, n / 256 ^ 7 % 256]

/-- JavaScript `ToUint32` conversion, used by `setUint32` for signed input
(extended-timestamp seconds): the representative of `t` in `[0, 2^32)`. -/
def toUint32 (t : Int) : Nat := (t % (2 ^ 32 : Nat)).toNat

/-- `DataView.setUint32(_, t, true)` for a possibly negative integer. -/
def u32LEInt (t : Int) : List Nat := u32LE (toUint32 t)

/-- Read the byte at offset `i` (0 beyond the end; the embedding only ever
reads in bounds). -/
def getU8 : List Nat → Nat → Nat
  | [], _ => 0
  | b :: _, 0 => b
  | _ :: l, i + 1 => getU8 l i

/-- `DataView.getUint16(i, true)`. -/
def getU16 (l : List Nat) (i : Nat) : Nat := getU8 l i + 256 * getU8 l (i + 1)

/-- `DataView.getUint32(i, true)`. -/
def getU32 (l : List Nat) (i : Nat) : Nat :=
  getU8 l i + 256 * getU8 l (i + 1) + 256 ^ 2 * getU8 l (i + 2) + 256 ^ 3 * getU8 l (i + 3)

/-- `DataView.getBigUint64(i, true)` (converted back to `Number` in the
source; exact for every value the writer can produce). -/
def getU64 (l : List Nat) (i : Nat) : Nat :=
  getU8 l i + 256 * getU8 l (i + 1) + 256 ^ 2 * getU8 l (i + 2) + 256 ^ 3 * getU8 l (i + 3)
  + 256 ^ 4 * getU8 l (i + 4) + 256 ^ 5 * getU8 l (i + 5)
  + 256 ^ 6 * getU8 l (i + 6) + 256 ^ 7 * getU8 l (i + 7)

/-- Reinterpret an unsigned 32-bit value as signed (`DataView.getInt32`). -/
def toInt32 (n : Nat) : Int := if n % 2 ^ 32 < 2 ^ 31 then (n % 2 ^ 32 : Nat) else (n % 2 ^ 32 : Nat) - 2 ^ 32

theorem getU8_cons_succ (b : Nat) (l : List Nat) (i : Nat) :
    getU8 (b :: l) (i + 1) = getU8 l i := rfl

theorem getU8_append_right (l r : List Nat) (i : Nat) :
    getU8 (l ++ r) (l.length + i) = getU8 r i := by
  induction l with
  | nil => simp
  | cons b t ih => simpa [List.length_cons, Nat.succ_add, getU8] using ih

theorem getU16_u16LE (n : Nat) (r : List Nat) : getU16 (u16LE n ++ r) 0 = n % 2 ^ 16 := by
  simp only [u16LE, getU16, getU8]
  omega

theorem getU32_u32LE (n : Nat) (r : List Nat) : getU32 (u32LE n ++ r) 0 = n % 2 ^ 32 := by
  simp only [u32LE, getU32, getU8]
  omega

theorem getU64_u64LE (n : Nat) (r : List Nat) : getU64 (u64LE n ++ r) 0 = n % 2 ^ 64 := by
  simp only [u64LE, getU64, getU8]
  omega

theorem toInt32_toUint32 (t : Int) (h1 : -(2 ^ 31) ≤ t) (h2 : t < 2 ^ 31) :
    toInt32 (toUint32 t) = t := by
  simp only [toInt32, toUint32]
  omega

/-! ## Exact-Bytes Transform (`src/stream_utils/exact_bytes_transform_stream.ts`)

`ExactBytesTransformStream(size)` counts the bytes of every chunk piped
through it.  `transform` throws a `RangeError` as soon as a whole chunk
would push the running total past `size` (enqueueing nothing of that
chunk); `flush` throws a `RangeError` when the stream ends with fewer than
`size` bytes seen.  We model a run of the transform over a finite list of
chunks: the result is the list of chunks actually enqueued downstream plus
the error raised, if any (`byteSizeExceeded` for the `transform` throw,
`byteSizeShortfall` for the `flush` throw). -/

def ebRun (size : Nat) (read : Nat) : List (List Nat) → List (List Nat) × Option ZErr
  | [] => ([], if read < size then some .byteSizeShortfall else none)
  | c :: rest =>
    if read + c.length > size then
      ([], some .byteSizeExceeded)
    else
      let (out, e) := ebRun size (read + c.length) rest
      (c :: out, e)

/-- A full run of `ExactBytesTransformStream(size)` over the chunk list,
starting from the initial private counter `#read = 0`. -/
def exactBytes (size : Nat) (chunks : List (List Nat)) : List (List Nat) × Option ZErr :=
  ebRun size 0 chunks

theorem ebRun_all (size read : Nat) (chunks : List (List Nat))
    (h : read + chunks.flatten.length = size) :
    ebRun size read chunks = (chunks, none) := by
  induction chunks generalizing read with
  | nil =>
    simp only [List.flatten_nil, List.length_nil, Nat.add_zero] at h
    simp [ebRun, h]
  | cons c rest ih =>
    simp only [List.flatten_cons, List.length_append] at h
    have hle : ¬ read + c.length > size := by omega
    simp only [ebRun, hle, if_false]
    rw [ih (read + c.length) (by omega)]

theorem ebRun_short (size read : Nat) (chunks : List (List Nat))
    (h : read + chunks.flatten.length < size) :
    ebRun size read chunks = (chunks, some .byteSizeShortfall) := by
  induction chunks generalizing read with
  | nil =>
    simp only [List.flatten_nil, List.length_nil, Nat.add_zero] at h
    simp [ebRun, h]
  | cons c rest ih =>
    simp only [List.flatten_cons, List.length_append] at h
    have hle : ¬ read + c.length > size := by omega
    simp only [ebRun, hle, if_false]
    rw [ih (read + c.length) (by omega)]

theorem ebRun_exceed (size read : Nat) (pre : List (List Nat)) (c : List Nat)
    (post : List (List Nat)) (hpre : read + pre.flatten.length ≤ size)
    (hc : read + pre.flatten.length + c.length > size) :
    ebRun size read (pre ++ c :: post) = (pre, some .byteSizeExceeded) := by
  induction pre generalizing read with
  | nil =>
    simp only [List.flatten_nil, List.length_nil, Nat.add_zero] at hc
    simp [ebRun, hc]
  | cons d rest ih =>
    simp only [List.flatten_cons, List.length_append] at hpre hc
    have hle : ¬ read + d.length > size := by omega
    simp only [List.cons_append, ebRun, hle, if_false]
    rw [show rest.append (c :: post) = rest ++ c :: post from rfl,
      ih (read + d.length) (by omega) (by omega)]

/-- C2 counterexample.  With `size = 1` and the single chunk `[1, 2]`, the
second byte is the first byte that would make the running total exceed
`size`, so the claim requires byte `1` to be passed through before the
failure.  The transform instead rejects the whole chunk: it raises the
RangeError and passes nothing downstream. -/
theorem exactBytes_drops_bytes_of_offending_chunk :
    (exactBytes 1 [[1, 2]]).2 = some ZErr.byteSizeExceeded ∧
      (exactBytes 1 [[1, 2]]).1.flatten ≠ [1] := by
  decide

/-- C2 (amended): `ExactBytesTransformStream(size)` is the identity on every
input whose total length is exactly `size`; it fails with a RangeError on
the first whole chunk that would make the running total exceed `size`,
passing through all chunks before that chunk but no byte of the offending
chunk itself; and it fails with a RangeError at end-of-input whenever the
total received is less than `size`. -/
theorem exactBytes_spec (size : Nat) (chunks : List (List Nat)) :
    (chunks.flatten.length = size → exactBytes size chunks = (chunks, none))
    ∧ (∀ pre c post, chunks = pre ++ c :: post → pre.flatten.length ≤ size →
        pre.flatten.length + c.length > size →
        exactBytes size chunks = (pre, some .byteSizeExceeded))
    ∧ (chunks.flatten.length < size →
        exactBytes size chunks = (chunks, some .byteSizeShortfall)) := by
  refine ⟨fun h => ebRun_all size 0 chunks (by omega), ?_, fun h => ebRun_short size 0 chunks (by omega)⟩
  intro pre c post hchunks hpre hc
  rw [exactBytes, hchunks, ebRun_exceed size 0 pre c post (by omega) (by omega)]

/-- Witness for `exactBytes_spec` at the spec's scenario S2: the upstream
`[1..9]` in three chunks, through sizes 9 (identity), 8 (exceeded at the
third chunk), and 10 (shortfall at end-of-input). -/
theorem exactBytes_spec_witness :
    exactBytes 9 [[1, 2, 3], [4, 5, 6], [7, 8, 9]] = ([[1, 2, 3], [4, 5, 6], [7, 8, 9]], none)
    ∧ exactBytes 8 [[1, 2, 3], [4, 5, 6], [7, 8, 9]] = ([[1, 2, 3], [4, 5, 6]], some .byteSizeExceeded)
    ∧ exactBytes 10 [[1, 2, 3], [4, 5, 6], [7, 8, 9]] = ([[1, 2, 3], [4, 5, 6], [7, 8, 9]], some .byteSizeShortfall) := by
  refine ⟨(exactBytes_spec 9 _).1 (by decide), ?_, (exactBytes_spec 10 _).2.2 (by decide)⟩
  exact (exactBytes_spec 8 _).2.1 [[1, 2, 3], [4, 5, 6]] [7, 8, 9] [] (by decide) (by decide) (by decide)

/-! ## Partial Reader (`src/unnamed/part_001`)

`PartialReader` adapts an upstream chunk source into byte-precise reads.
The *default* variant (`DefaultPartialReader`) wraps a
`ReadableStreamDefaultReader`: the upstream hands over whole chunks of
arbitrary length and excess bytes beyond a bounded request are buffered in
`#leftOvers`.  We model its state as the list of chunks the upstream will
still deliver plus the optional leftover slice; asynchronous methods become
state-passing functions. -/

/-- `ReadableStreamReadResult<Uint8Array>`. -/
inductive ReadResult where
  | done
  | value (v : List Nat)
  deriving DecidableEq, Repr

/-- The bytes a read result delivered (none for `done`). -/
def ReadResult.bytes : ReadResult → List Nat
  | .done => []
  | .value v => v

/-- State of a `DefaultPartialReader`: the chunks the upstream reader will
still produce, and the `#leftOvers` buffer. -/
structure DState where
  chunks : List (List Nat)
  leftOvers : Option (List Nat)
  deriving DecidableEq, Repr

/-- All bytes the reader can still deliver, leftover first. -/
def DState.bytes (s : DState) : List Nat :=
  (match s.leftOvers with | none => [] | some v => v) ++ s.chunks.flatten

/-- Termination measure for the read loops: strictly decreases on every
`limitedRead` that returns a value with a positive bound. -/
def DState.weight (s : DState) : Nat :=
  2 * s.bytes.length + s.chunks.length + (if s.leftOvers.isSome then 1 else 0)

/-- `DefaultPartialReader.limitedRead(maxSize)`: serve the leftover if
present, otherwise read one upstream chunk; split anything longer than
`maxSize`, buffering the tail. -/
def dLimitedRead (maxSize : Nat) (s : DState) : ReadResult × DState :=
  match s.leftOvers with
  | some v =>
    if v.length > maxSize then
      (.value (v.take maxSize), ⟨s.chunks, some (v.drop maxSize)⟩)
    else (.value v, ⟨s.chunks, none⟩)
  | none =>
    match s.chunks with
    | [] => (.done, s)
    | c :: rest =>
      if c.length > maxSize then (.value (c.take maxSize), ⟨rest, some (c.drop maxSize)⟩)
      else (.value c, ⟨rest, none⟩)

theorem dLimitedRead_done (maxSize : Nat) (s : DState)
    (h : (dLimitedRead maxSize s).1 = .done) :
    s.bytes = [] ∧ (dLimitedRead maxSize s).2 = s := by
  unfold dLimitedRead at *
  rcases s with ⟨chunks, lo⟩
  cases lo with
  | some v => by_cases hv : v.length > maxSize <;> simp [hv] at h
  | none =>
    cases chunks with
    | nil => exact ⟨rfl, rfl⟩
    | cons c rest => by_cases hc : c.length > maxSize <;> simp [hc] at h

theorem dLimitedRead_value (maxSize : Nat) (s : DState) (v : List Nat)
    (h : (dLimitedRead maxSize s).1 = .value v) :
    v.length ≤ maxSize ∧ v ++ (dLimitedRead maxSize s).2.bytes = s.bytes := by
  unfold dLimitedRead at *
  rcases s with ⟨chunks, lo⟩
  cases lo with
  | some w =>
    by_cases hw : w.length > maxSize <;> simp only [hw, if_true, if_false, reduceIte] at h ⊢
    · cases h
      refine ⟨by simp [List.length_take], ?_⟩
      simp [DState.bytes, ← List.append_assoc, List.take_append_drop]
    · cases h
      exact ⟨by omega, by simp [DState.bytes]⟩
  | none =>
    cases chunks with
    | nil => simp at h
    | cons c rest =>
      by_cases hc : c.length > maxSize <;> simp only [hc, if_true, if_false, reduceIte] at h ⊢
      · cases h
        refine ⟨by simp [List.length_take], ?_⟩
        simp [DState.bytes, ← List.append_assoc, List.take_append_drop]
      · cases h
        exact ⟨by omega, by simp [DState.bytes]⟩

theorem dLimitedRead_weight (maxSize : Nat) (s : DState) (v : List Nat)
    (hmax : 1 ≤ maxSize) (h : (dLimitedRead maxSize s).1 = .value v) :
    (dLimitedRead maxSize s).2.weight < s.weight := by
  unfold dLimitedRead at *
  rcases s with ⟨chunks, lo⟩
  cases lo with
  | some w =>
    by_cases hw : w.length > maxSize <;>
      simp only [hw, if_true, if_false, reduceIte] at h ⊢ <;>
      simp [DState.weight, DState.bytes, List.length_take, List.length_drop] <;> omega
  | none =>
    cases chunks with
    | nil => simp at h
    | cons c rest =>
      by_cases hc : c.length > maxSize <;>
        simp only [hc, if_true, if_false, reduceIte] at h ⊢ <;>
        simp [DState.weight, DState.bytes, List.length_take, List.length_drop] <;> omega

theorem dLimitedRead_prefix (maxSize : Nat) (s : DState) :
    (dLimitedRead maxSize s).1.bytes <+: s.bytes := by
  cases hr : (dLimitedRead maxSize s).1 with
  | done => exact List.nil_prefix
  | value v =>
    exact ⟨(dLimitedRead maxSize s).2.bytes, (dLimitedRead_value maxSize s v hr).2⟩

/-- The buffer-filling loop of `PartialReader.readAmount` (the `while
(bytesRead < size)` loop): `acc` is the portion already copied into the
result buffer.  `fuel` is an upper bound on the number of iterations; the
wrapper always supplies enough for the loop to run to completion. -/
def dReadFill (size : Nat) : Nat → List Nat → DState → List Nat × DState
  | 0, acc, s => (acc, s)
  | fuel + 1, acc, s =>
    if acc.length < size then
      match dLimitedRead (size - acc.length) s with
      | (.done, s') => (acc, s')
      | (.value v, s') => dReadFill size fuel (acc ++ v) s'
    else (acc, s)

/-- `PartialReader.readAmount(size)` (inherited by the default variant):
one `limitedRead`; empty result on `done`; the first slice directly if it
already satisfies `size`; otherwise the filling loop. -/
def dReadAmount (size : Nat) (s : DState) : List Nat × DState :=
  match dLimitedRead size s with
  | (.done, s') => ([], s')
  | (.value v, s') =>
    if v.length < size then dReadFill size (s'.weight + 1) v s' else (v, s')

theorem dReadFill_spec (size : Nat) (fuel : Nat) :
    ∀ (acc : List Nat) (s : DState), s.weight < fuel → acc.length ≤ size →
    (dReadFill size fuel acc s).1 = acc ++ s.bytes.take (size - acc.length)
    ∧ (dReadFill size fuel acc s).2.bytes = s.bytes.drop (size - acc.length) := by
  induction fuel with
  | zero => intro acc s hw; omega
  | succ fuel ih =>
    intro acc s hw hacc
    by_cases hlt : acc.length < size
    · simp only [dReadFill, hlt, reduceIte]
      rcases hr : dLimitedRead (size - acc.length) s with ⟨r, s'⟩
      cases r with
      | done =>
        have hd := dLimitedRead_done (size - acc.length) s (by rw [hr])
        rw [hr] at hd
        simp only at hd
        simp [hd.1, hd.2]
      | value v =>
        have hv := dLimitedRead_value (size - acc.length) s v (by rw [hr])
        have hwlt := dLimitedRead_weight (size - acc.length) s v (by omega) (by rw [hr])
        rw [hr] at hv hwlt
        simp only at hv hwlt
        have hidx : size - (acc ++ v).length = size - acc.length - v.length := by
          simp only [List.length_append]; omega
        have ihres := ih (acc ++ v) s' (by omega)
          (by simp only [List.length_append]; omega)
        refine ⟨?_, ?_⟩
        · rw [ihres.1, ← hv.2, List.take_append_eq_append_take,
            List.take_of_length_le hv.1, hidx, List.append_assoc]
        · rw [ihres.2, ← hv.2, List.drop_append_eq_append_drop,
            List.drop_of_length_le hv.1, hidx, List.nil_append]
    · simp only [dReadFill, hlt, reduceIte]
      have hz : size - acc.length = 0 := by omega
      simp [hz]

theorem dReadAmount_spec (size : Nat) (s : DState) :
    (dReadAmount size s).1 = s.bytes.take size
    ∧ (dReadAmount size s).2.bytes = s.bytes.drop size := by
  unfold dReadAmount
  rcases hr : dLimitedRead size s with ⟨r, s'⟩
  cases r with
  | done =>
    have hd := dLimitedRead_done size s (by rw [hr])
    rw [hr] at hd
    simp only at hd
    simp [hd.1, hd.2]
  | value v =>
    have hv := dLimitedRead_value size s v (by rw [hr])
    rw [hr] at hv
    simp only at hv
    by_cases hlt : v.length < size
    · simp only [hlt, reduceIte]
      have hf := dReadFill_spec size (s'.weight + 1) v s' (by omega) hv.1
      refine ⟨?_, ?_⟩
      · rw [hf.1, ← hv.2, List.take_append_eq_append_take,
          List.take_of_length_le hv.1]
      · rw [hf.2, ← hv.2, List.drop_append_eq_append_drop,
          List.drop_of_length_le hv.1, List.nil_append]
    · simp only [hlt, reduceIte]
      have hlen : v.length = size := by omega
      have h1 : List.take size v = v := by rw [← hlen, List.take_length]
      have h2 : size - v.length = 0 := by omega
      refine ⟨?_, ?_⟩
      · rw [← hv.2, List.take_append_eq_append_take, h1, h2]
        simp
      · rw [← hv.2, List.drop_append_eq_append_drop, h2,
          List.drop_of_length_le (by omega), List.nil_append, List.drop_zero]

/-- `PartialReader.readAmountStrict(size)`: `readAmount` followed by the
length check; throws "Stream completed early" on a short result. -/
def dReadAmountStrict (size : Nat) (s : DState) : Except ZErr (List Nat × DState) :=
  match dReadAmount size s with
  | (v, s') => if v.length < size then .error .unexpectedEnd else .ok (v, s')

/-- The `while (bytesLeft > 0)` loop of `PartialReader.skipAmount`. -/
def dSkipF : Nat → Nat → DState → DState
  | 0, _, s => s
  | fuel + 1, bytesLeft, s =>
    if bytesLeft > 0 then
      match dLimitedRead bytesLeft s with
      | (.done, s') => s'
      | (.value v, s') => dSkipF fuel (bytesLeft - v.length) s'
    else s

/-- `PartialReader.skipAmount(size)` (inherited by the default variant). -/
def dSkipAmount (size : Nat) (s : DState) : DState := dSkipF (s.weight + 1) size s

theorem dSkipF_spec (fuel : Nat) :
    ∀ (bytesLeft : Nat) (s : DState), s.weight < fuel →
    (dSkipF fuel bytesLeft s).bytes = s.bytes.drop bytesLeft := by
  induction fuel with
  | zero => intro k s hw; omega
  | succ fuel ih =>
    intro k s hw
    by_cases hk : k > 0
    · simp only [dSkipF, hk, reduceIte]
      rcases hr : dLimitedRead k s with ⟨r, s'⟩
      cases r with
      | done =>
        have hd := dLimitedRead_done k s (by rw [hr])
        rw [hr] at hd
        simp only at hd
        simp [hd.1, hd.2]
      | value v =>
        have hv := dLimitedRead_value k s v (by rw [hr])
        have hwlt := dLimitedRead_weight k s v (by omega) (by rw [hr])
        rw [hr] at hv hwlt
        simp only at hv hwlt
        rw [ih (k - v.length) s' (by omega), ← hv.2,
          List.drop_append_eq_append_drop, List.drop_of_length_le hv.1,
          List.nil_append]
    · simp only [dSkipF, hk, reduceIte]
      simp [show k = 0 by omega]

theorem dSkipAmount_spec (size : Nat) (s : DState) :
    (dSkipAmount size s).bytes = s.bytes.drop size :=
  dSkipF_spec (s.weight + 1) size s (by omega)

/-- The state of the `ReadableStream` returned by
`PartialReader.streamAmount(size)`: the captured `bytesLeft` counter, the
underlying partial reader, the `result.consumed` flag (the `onConsumed`
deferred promise resolves exactly when this flag is set), and whether the
stream's controller has been closed. -/
structure DStream where
  bytesLeft : Nat
  src : DState
  consumed : Bool
  closed : Bool
  deriving DecidableEq, Repr

/-- `PartialReader.streamAmount(size)`: a fresh pull-driven substream. -/
def dStreamAmount (size : Nat) (s : DState) : DStream :=
  ⟨size, s, false, false⟩

/-- One `pull` of the substream: a `limitedRead(bytesLeft)`; on `done`,
mark consumed and close; on a value, decrement `bytesLeft`, enqueue the
chunk, and close (marking consumed) once `bytesLeft` reaches 0. -/
def dStreamPull (st : DStream) : Option (List Nat) × DStream :=
  if st.closed then (none, st)
  else
    match dLimitedRead st.bytesLeft st.src with
    | (.done, s') => (none, ⟨st.bytesLeft, s', true, true⟩)
    | (.value v, s') =>
      let b' := st.bytesLeft - v.length
      if b' ≤ 0 then (some v, ⟨b', s', true, true⟩)
      else (some v, ⟨b', s', st.consumed, st.closed⟩)

/-- Iterate `pull` (the downstream consumer requesting chunks). -/
def dStreamPulls : Nat → DStream → DStream
  | 0, st => st
  | k + 1, st => dStreamPulls k (dStreamPull st).2

/-- The substream's `cancel` callback: `skipAmount(bytesLeft)` on the
parent reader, then mark consumed (resolving `onConsumed`). -/
def dStreamCancel (st : DStream) : DStream :=
  ⟨st.bytesLeft, dSkipAmount st.bytesLeft st.src, true, true⟩

theorem dStreamPull_inv (n : Nat) (s0 : DState) (st : DStream)
    (h1 : st.bytesLeft ≤ n) (h2 : st.src.bytes = s0.bytes.drop (n - st.bytesLeft)) :
    (dStreamPull st).2.bytesLeft ≤ n
    ∧ (dStreamPull st).2.src.bytes = s0.bytes.drop (n - (dStreamPull st).2.bytesLeft) := by
  unfold dStreamPull
  by_cases hc : st.closed
  · simp [hc, h1, h2]
  · simp only [hc, reduceIte]
    rcases hr : dLimitedRead st.bytesLeft st.src with ⟨r, s'⟩
    cases r with
    | done =>
      have hd := dLimitedRead_done st.bytesLeft st.src (by rw [hr])
      rw [hr] at hd
      simp only at hd
      simp [hd.2, h1, h2]
    | value v =>
      have hv := dLimitedRead_value st.bytesLeft st.src v (by rw [hr])
      rw [hr] at hv
      simp only at hv
      have hs' : s'.bytes = s0.bytes.drop (n - (st.bytesLeft - v.length)) := by
        have : s'.bytes = st.src.bytes.drop v.length := by
          rw [← hv.2, List.drop_append_eq_append_drop]
          simp
        rw [this, h2, List.drop_drop]
        congr 1
        omega
      by_cases hb : st.bytesLeft - v.length ≤ 0 <;>
        simp [hb, hs'] <;> omega

/-! ### BYOB variant (`BYOBPartialReader`)

The BYOB reader fills a caller-supplied view: a read delivers between 1
byte and the view's capacity while the stream still has bytes, and `done`
once it is exhausted.  How many bytes the upstream chooses to fill per
read is environment behaviour; we capture it with an oracle list `fills`
(clamped to the legal range), so theorems quantify over every legal
chunking. -/

/-- State of the upstream of a `BYOBPartialReader`: the bytes the stream
will still deliver and the fill-size oracle. -/
structure BState where
  bytes : List Nat
  fills : List Nat
  deriving DecidableEq, Repr

/-- `reader.read(view)` for a view of capacity `cap ≥ 1`: the source fills
between 1 and `cap` bytes (per the oracle) while bytes remain. -/
def byobRead (cap : Nat) (st : BState) : ReadResult × BState :=
  match st.bytes with
  | [] => (.done, st)
  | _ :: _ =>
    let actual := min cap (min st.bytes.length (max 1 (st.fills.headD cap)))
    (.value (st.bytes.take actual), ⟨st.bytes.drop actual, st.fills.tail⟩)

/-- `BYOBPartialReader.limitedRead(maxSize)`: one read into a fresh
`maxSize`-byte buffer. -/
def bLimitedRead (maxSize : Nat) (st : BState) : ReadResult × BState :=
  byobRead maxSize st

theorem byobRead_done (cap : Nat) (st : BState)
    (h : (byobRead cap st).1 = .done) :
    st.bytes = [] ∧ (byobRead cap st).2 = st := by
  unfold byobRead at *
  cases hb : st.bytes with
  | nil => simp [hb]
  | cons b t => simp [hb] at h

theorem byobRead_value (cap : Nat) (st : BState) (v : List Nat)
    (hcap : 1 ≤ cap) (h : (byobRead cap st).1 = .value v) :
    1 ≤ v.length ∧ v.length ≤ cap ∧ v ++ (byobRead cap st).2.bytes = st.bytes := by
  rcases st with ⟨bytes, fills⟩
  cases bytes with
  | nil => simp [byobRead] at h
  | cons b t =>
    simp only [byobRead] at h ⊢
    cases h
    refine ⟨?_, ?_, ?_⟩
    · simp only [List.length_take, List.length_cons]
      omega
    · simp only [List.length_take]
      omega
    · simp [List.take_append_drop]

/-- The `while (bytesRead < size)` loop of `BYOBPartialReader.readAmount`:
`acc` is the filled prefix of the destination buffer. -/
def bReadFill (size : Nat) : Nat → List Nat → BState → List Nat × BState
  | 0, acc, st => (acc, st)
  | fuel + 1, acc, st =>
    if acc.length < size then
      match byobRead (size - acc.length) st with
      | (.done, st') => (acc, st')
      | (.value v, st') => bReadFill size fuel (acc ++ v) st'
    else (acc, st)

/-- `BYOBPartialReader.readAmount(size)` (the override). -/
def bReadAmount (size : Nat) (st : BState) : List Nat × BState :=
  bReadFill size (st.bytes.length + 1) [] st

/-- `readAmountStrict(size)` dispatching to the BYOB `readAmount`. -/
def bReadAmountStrict (size : Nat) (st : BState) : Except ZErr (List Nat × BState) :=
  match bReadAmount size st with
  | (v, st') => if v.length < size then .error .unexpectedEnd else .ok (v, st')

theorem bReadFill_spec (size : Nat) (fuel : Nat) :
    ∀ (acc : List Nat) (st : BState), st.bytes.length < fuel → acc.length ≤ size →
    (bReadFill size fuel acc st).1 = acc ++ st.bytes.take (size - acc.length)
    ∧ (bReadFill size fuel acc st).2.bytes = st.bytes.drop (size - acc.length) := by
  induction fuel with
  | zero => intro acc st hw; omega
  | succ fuel ih =>
    intro acc st hw hacc
    by_cases hlt : acc.length < size
    · simp only [bReadFill, hlt, reduceIte]
      rcases hr : byobRead (size - acc.length) st with ⟨r, st'⟩
      cases r with
      | done =>
        have hd := byobRead_done (size - acc.length) st (by rw [hr])
        rw [hr] at hd
        simp only at hd
        simp [hd.1, hd.2]
      | value v =>
        have hv := byobRead_value (size - acc.length) st v (by omega) (by rw [hr])
        rw [hr] at hv
        simp only at hv
        have hlen : st'.bytes.length < fuel := by
          have := congrArg List.length hv.2.2
          simp only [List.length_append] at this
          omega
        have hidx : size - (acc ++ v).length = size - acc.length - v.length := by
          simp only [List.length_append]; omega
        have ihres := ih (acc ++ v) st' hlen
          (by simp only [List.length_append]; omega)
        refine ⟨?_, ?_⟩
        · rw [ihres.1, ← hv.2.2, List.take_append_eq_append_take,
            List.take_of_length_le hv.2.1, hidx, List.append_assoc]
        · rw [ihres.2, ← hv.2.2, List.drop_append_eq_append_drop,
            List.drop_of_length_le hv.2.1, hidx, List.nil_append]
    · simp only [bReadFill, hlt, reduceIte]
      have hz : size - acc.length = 0 := by omega
      simp [hz]

theorem bReadAmount_spec (size : Nat) (st : BState) :
    (bReadAmount size st).1 = st.bytes.take size
    ∧ (bReadAmount size st).2.bytes = st.bytes.drop size := by
  have h := bReadFill_spec size (st.bytes.length + 1) [] st (by omega) (by simp)
  simpa [bReadAmount] using h

/-- The `while (bytesLeft > 0)` loop of `BYOBPartialReader.skipAmount`:
`alloc` is the capacity of the recycled trash buffer
(`min(size, 2048)` at allocation; subsequent reads use at most
`min(alloc, bytesLeft)` of it). -/
def bSkipF : Nat → Nat → Nat → BState → BState
  | 0, _, _, st => st
  | fuel + 1, alloc, bytesLeft, st =>
    if bytesLeft > 0 then
      match byobRead (min alloc bytesLeft) st with
      | (.done, st') => st'
      | (.value v, st') => bSkipF fuel alloc (bytesLeft - v.length) st'
    else st

/-- `BYOBPartialReader.skipAmount(size)` (the override). -/
def bSkipAmount (size : Nat) (st : BState) : BState :=
  bSkipF (st.bytes.length + 1) (min size 2048) size st

theorem bSkipF_spec (fuel : Nat) :
    ∀ (alloc bytesLeft : Nat) (st : BState), st.bytes.length < fuel →
    (1 ≤ alloc ∨ bytesLeft = 0) →
    (bSkipF fuel alloc bytesLeft st).bytes = st.bytes.drop bytesLeft := by
  induction fuel with
  | zero => intro alloc k st hw _; omega
  | succ fuel ih =>
    intro alloc k st hw halloc
    by_cases hk : k > 0
    · simp only [bSkipF, hk, reduceIte]
      rcases hr : byobRead (min alloc k) st with ⟨r, st'⟩
      cases r with
      | done =>
        have hd := byobRead_done (min alloc k) st (by rw [hr])
        rw [hr] at hd
        simp only at hd
        simp [hd.1, hd.2]
      | value v =>
        have hv := byobRead_value (min alloc k) st v (by omega) (by rw [hr])
        rw [hr] at hv
        simp only at hv
        have hlen : st'.bytes.length < fuel := by
          have := congrArg List.length hv.2.2
          simp only [List.length_append] at this
          omega
        have hvk : v.length ≤ k := by
          have := hv.2.1
          omega
        rw [ih alloc (k - v.length) st' hlen (Or.inl (by omega)), ← hv.2.2,
          List.drop_append_eq_append_drop, List.drop_of_length_le hvk,
          List.nil_append]
    · simp only [bSkipF, hk, reduceIte]
      simp [show k = 0 by omega]

theorem bSkipAmount_spec (size : Nat) (st : BState) :
    (bSkipAmount size st).bytes = st.bytes.drop size := by
  unfold bSkipAmount
  apply bSkipF_spec
  · omega
  · rcases Nat.eq_zero_or_pos size with h | h
    · exact Or.inr h
    · exact Or.inl (by omega)

/-- State of the byte-stream returned by `BYOBPartialReader.streamAmount`
(`type: "bytes"`, `autoAllocateChunkSize: 2048`). -/
structure BStream where
  bytesLeft : Nat
  src : BState
  consumed : Bool
  closed : Bool
  deriving DecidableEq, Repr

/-- `BYOBPartialReader.streamAmount(size)`: a fresh byte substream. -/
def bStreamAmount (size : Nat) (st : BState) : BStream :=
  ⟨size, st, false, false⟩

/-- One `pull` of the BYOB substream with a BYOB request view of capacity
`viewLen` (2048 for an auto-allocated request): close immediately when
`bytesLeft ≤ 0`; otherwise read into the view truncated to `bytesLeft`,
closing on `done` and responding with the filled bytes otherwise. -/
def bStreamPull (viewLen : Nat) (st : BStream) : Option (List Nat) × BStream :=
  if st.closed then (none, st)
  else if st.bytesLeft ≤ 0 then (none, ⟨st.bytesLeft, st.src, true, true⟩)
  else
    match byobRead (min viewLen st.bytesLeft) st.src with
    | (.done, s') => (none, ⟨st.bytesLeft, s', true, true⟩)
    | (.value v, s') => (some v, ⟨st.bytesLeft - v.length, s', st.consumed, st.closed⟩)

/-- Iterate `pull` with the given sequence of request-view capacities. -/
def bStreamPulls : List Nat → BStream → BStream
  | [], st => st
  | vl :: vls, st => bStreamPulls vls (bStreamPull vl st).2

/-- The BYOB substream's `cancel` callback: `skipAmount(bytesLeft)`, then
mark consumed (resolving `onConsumed`). -/
def bStreamCancel (st : BStream) : BStream :=
  ⟨st.bytesLeft, bSkipAmount st.bytesLeft st.src, true, true⟩

theorem bStreamPull_inv (n : Nat) (s0 : BState) (viewLen : Nat) (st : BStream)
    (hview : 1 ≤ viewLen) (h1 : st.bytesLeft ≤ n)
    (h2 : st.src.bytes = s0.bytes.drop (n - st.bytesLeft)) :
    (bStreamPull viewLen st).2.bytesLeft ≤ n
    ∧ (bStreamPull viewLen st).2.src.bytes
        = s0.bytes.drop (n - (bStreamPull viewLen st).2.bytesLeft) := by
  unfold bStreamPull
  by_cases hc : st.closed
  · simp [hc, h1, h2]
  · simp only [hc, reduceIte, Bool.false_eq_true]
    by_cases hb : st.bytesLeft ≤ 0
    · simp [hb, h1, h2]
    · simp only [hb, reduceIte]
      rcases hr : byobRead (min viewLen st.bytesLeft) st.src with ⟨r, s'⟩
      cases r with
      | done =>
        have hd := byobRead_done (min viewLen st.bytesLeft) st.src (by rw [hr])
        rw [hr] at hd
        simp only at hd
        simp [hd.2, h1, h2]
      | value v =>
        have hv := byobRead_value (min viewLen st.bytesLeft) st.src v (by omega) (by rw [hr])
        rw [hr] at hv
        simp only at hv
        have hvb : v.length ≤ st.bytesLeft := by
          have := hv.2.1
          omega
        have hs' : s'.bytes = s0.bytes.drop (n - (st.bytesLeft - v.length)) := by
          have hdrop : s'.bytes = st.src.bytes.drop v.length := by
            rw [← hv.2.2, List.drop_append_eq_append_drop]
            simp
          rw [hdrop, h2, List.drop_drop]
          congr 1
          omega
        constructor
        · show st.bytesLeft - v.length ≤ n
          omega
        · show s'.bytes = s0.bytes.drop (n - (st.bytesLeft - v.length))
          exact hs'

theorem bLimitedRead_prefix (maxSize : Nat) (st : BState) :
    (bLimitedRead maxSize st).1.bytes <+: st.bytes := by
  rcases st with ⟨bytes, fills⟩
  cases bytes with
  | nil => exact List.nil_prefix
  | cons b t => simpa [bLimitedRead, byobRead, ReadResult.bytes] using List.take_prefix _ _

/-- Claim C3: for every `n ≥ 0` and every upstream source,
`readAmountStrict(n)` (on either `PartialReader` variant) either returns a
slice of length exactly `n` — the next `n` bytes of the source — or fails
with *UnexpectedEnd* when the source holds fewer than `n` bytes; it never
returns a shorter slice. -/
theorem readAmountStrict_exact_or_fails :
    (∀ (n : Nat) (s : DState) (v : List Nat) (s' : DState),
        dReadAmountStrict n s = .ok (v, s') → v.length = n ∧ v = s.bytes.take n)
    ∧ (∀ (n : Nat) (s : DState), s.bytes.length < n →
        dReadAmountStrict n s = .error .unexpectedEnd)
    ∧ (∀ (n : Nat) (s : DState), n ≤ s.bytes.length →
        ∃ s', dReadAmountStrict n s = .ok (s.bytes.take n, s'))
    ∧ (∀ (n : Nat) (st : BState) (v : List Nat) (st' : BState),
        bReadAmountStrict n st = .ok (v, st') → v.length = n ∧ v = st.bytes.take n)
    ∧ (∀ (n : Nat) (st : BState), st.bytes.length < n →
        bReadAmountStrict n st = .error .unexpectedEnd)
    ∧ (∀ (n : Nat) (st : BState), n ≤ st.bytes.length →
        ∃ st', bReadAmountStrict n st = .ok (st.bytes.take n, st')) := by
  refine ⟨?_, ?_, ?_, ?_, ?_, ?_⟩
  · intro n s v s' h
    have hspec := (dReadAmount_spec n s).1
    unfold dReadAmountStrict at h
    rcases hda : dReadAmount n s with ⟨w, s''⟩
    rw [hda] at h hspec
    simp only at hspec
    by_cases hlt : w.length < n
    · simp [hlt] at h
    · simp only [hlt, reduceIte, Except.ok.injEq, Prod.mk.injEq] at h
      have : w.length = n := by
        rw [hspec] at hlt ⊢
        simp only [List.length_take] at hlt ⊢
        omega
      exact ⟨h.1 ▸ this, h.1 ▸ hspec⟩
  · intro n s hshort
    have hspec := (dReadAmount_spec n s).1
    unfold dReadAmountStrict
    rcases hda : dReadAmount n s with ⟨w, s''⟩
    rw [hda] at hspec
    simp only at hspec
    have : w.length < n := by
      rw [hspec]
      simp only [List.length_take]
      omega
    simp [this]
  · intro n s hlong
    have hspec := (dReadAmount_spec n s).1
    unfold dReadAmountStrict
    rcases hda : dReadAmount n s with ⟨w, s''⟩
    rw [hda] at hspec
    simp only at hspec
    have : ¬ w.length < n := by
      rw [hspec]
      simp only [List.length_take]
      omega
    exact ⟨s'', by simp [this, hspec, hlong]⟩
  · intro n st v st' h
    have hspec := (bReadAmount_spec n st).1
    unfold bReadAmountStrict at h
    rcases hda : bReadAmount n st with ⟨w, st''⟩
    rw [hda] at h hspec
    simp only at hspec
    by_cases hlt : w.length < n
    · simp [hlt] at h
    · simp only [hlt, reduceIte, Except.ok.injEq, Prod.mk.injEq] at h
      have : w.length = n := by
        rw [hspec] at hlt ⊢
        simp only [List.length_take] at hlt ⊢
        omega
      exact ⟨h.1 ▸ this, h.1 ▸ hspec⟩
  · intro n st hshort
    have hspec := (bReadAmount_spec n st).1
    unfold bReadAmountStrict
    rcases hda : bReadAmount n st with ⟨w, st''⟩
    rw [hda] at hspec
    simp only at hspec
    have : w.length < n := by
      rw [hspec]
      simp only [List.length_take]
      omega
    simp [this]
  · intro n st hlong
    have hspec := (bReadAmount_spec n st).1
    unfold bReadAmountStrict
    rcases hda : bReadAmount n st with ⟨w, st''⟩
    rw [hda] at hspec
    simp only at hspec
    have : ¬ w.length < n := by
      rw [hspec]
      simp only [List.length_take]
      omega
    exact ⟨st'', by simp [this, hspec, hlong]⟩

/-- Witness for `readAmountStrict_exact_or_fails` at the spec's scenario
S1 (three 3-byte upstream chunks): a strict read of 2 succeeds with the
first two bytes; a strict read of 5 with only two bytes left fails
*UnexpectedEnd*; likewise for the BYOB variant. -/
theorem readAmountStrict_exact_or_fails_witness :
    (∃ s', dReadAmountStrict 2 ⟨[[1, 2, 3], [4, 5, 6], [7, 8, 9]], none⟩ = .ok ([1, 2], s'))
    ∧ dReadAmountStrict 5 ⟨[[8, 9]], none⟩ = .error .unexpectedEnd
    ∧ (∃ st', bReadAmountStrict 2 ⟨[1, 2, 3, 4], [3]⟩ = .ok ([1, 2], st'))
    ∧ bReadAmountStrict 5 ⟨[8, 9], []⟩ = .error .unexpectedEnd := by
  refine ⟨?_, ?_, ?_, ?_⟩
  · exact readAmountStrict_exact_or_fails.2.2.1 2 ⟨[[1, 2, 3], [4, 5, 6], [7, 8, 9]], none⟩ (by decide)
  · exact readAmountStrict_exact_or_fails.2.1 5 ⟨[[8, 9]], none⟩ (by decide)
  · exact readAmountStrict_exact_or_fails.2.2.2.2.2 2 ⟨[1, 2, 3, 4], [3]⟩ (by decide)
  · exact readAmountStrict_exact_or_fails.2.2.2.2.1 5 ⟨[8, 9], []⟩ (by decide)

theorem dStreamPulls_inv (n : Nat) (s0 : DState) (k : Nat) :
    ∀ (st : DStream), st.bytesLeft ≤ n →
    st.src.bytes = s0.bytes.drop (n - st.bytesLeft) →
    (dStreamPulls k st).bytesLeft ≤ n
    ∧ (dStreamPulls k st).src.bytes = s0.bytes.drop (n - (dStreamPulls k st).bytesLeft) := by
  induction k with
  | zero => intro st h1 h2; exact ⟨h1, h2⟩
  | succ k ih =>
    intro st h1 h2
    have hp := dStreamPull_inv n s0 st h1 h2
    exact ih (dStreamPull st).2 hp.1 hp.2

theorem bStreamPulls_inv (n : Nat) (s0 : BState) (vls : List Nat) :
    ∀ (st : BStream), (∀ vl ∈ vls, 1 ≤ vl) → st.bytesLeft ≤ n →
    st.src.bytes = s0.bytes.drop (n - st.bytesLeft) →
    (bStreamPulls vls st).bytesLeft ≤ n
    ∧ (bStreamPulls vls st).src.bytes = s0.bytes.drop (n - (bStreamPulls vls st).bytesLeft) := by
  induction vls with
  | nil => intro st _ h1 h2; exact ⟨h1, h2⟩
  | cons vl vls ih =>
    intro st hv h1 h2
    have hp := bStreamPull_inv n s0 vl st (hv vl (by simp)) h1 h2
    exact ih (bStreamPull vl st).2 (fun w hw => hv w (by simp [hw])) hp.1 hp.2

/-- Claim C4: for every `n` and every upstream source with at least `n`
bytes remaining, after the substream returned by `streamAmount(n)` is
canceled — at any point where its controller has not yet closed — the
remaining bytes of the substream are skipped on the upstream, `consumed`
becomes true (so `onConsumed` resolves), and the next `limitedRead` on the
parent `PartialReader` returns bytes starting at upstream position `n`
past the start of the substream.  Both the base-class implementation used
by the default variant and the `BYOBPartialReader` override satisfy this. -/
theorem streamAmount_cancel_repositions :
    (∀ (n : Nat) (s0 : DState) (k : Nat),
        n ≤ s0.bytes.length →
        (dStreamPulls k (dStreamAmount n s0)).closed = false →
        (dStreamCancel (dStreamPulls k (dStreamAmount n s0))).consumed = true
        ∧ (dStreamCancel (dStreamPulls k (dStreamAmount n s0))).src.bytes = s0.bytes.drop n
        ∧ ∀ m, (dLimitedRead m (dStreamCancel (dStreamPulls k (dStreamAmount n s0))).src).1.bytes
            <+: s0.bytes.drop n)
    ∧ (∀ (n : Nat) (st0 : BState) (vls : List Nat),
        (∀ vl ∈ vls, 1 ≤ vl) →
        n ≤ st0.bytes.length →
        (bStreamPulls vls (bStreamAmount n st0)).closed = false →
        (bStreamCancel (bStreamPulls vls (bStreamAmount n st0))).consumed = true
        ∧ (bStreamCancel (bStreamPulls vls (bStreamAmount n st0))).src.bytes = st0.bytes.drop n
        ∧ ∀ m, (bLimitedRead m (bStreamCancel (bStreamPulls vls (bStreamAmount n st0))).src).1.bytes
            <+: st0.bytes.drop n) := by
  constructor
  · intro n s0 k hn _
    have hinv := dStreamPulls_inv n s0 k (dStreamAmount n s0) (by simp [dStreamAmount])
      (by simp [dStreamAmount])
    have hbytes : (dStreamCancel (dStreamPulls k (dStreamAmount n s0))).src.bytes
        = s0.bytes.drop n := by
      show (dSkipAmount (dStreamPulls k (dStreamAmount n s0)).bytesLeft
        (dStreamPulls k (dStreamAmount n s0)).src).bytes = s0.bytes.drop n
      rw [dSkipAmount_spec, hinv.2, List.drop_drop]
      congr 1
      omega
    refine ⟨rfl, hbytes, fun m => ?_⟩
    rw [← hbytes]
    exact dLimitedRead_prefix m _
  · intro n st0 vls hvls hn _
    have hinv := bStreamPulls_inv n st0 vls (bStreamAmount n st0) hvls
      (by simp [bStreamAmount]) (by simp [bStreamAmount])
    have hbytes : (bStreamCancel (bStreamPulls vls (bStreamAmount n st0))).src.bytes
        = st0.bytes.drop n := by
      show (bSkipAmount (bStreamPulls vls (bStreamAmount n st0)).bytesLeft
        (bStreamPulls vls (bStreamAmount n st0)).src).bytes = st0.bytes.drop n
      rw [bSkipAmount_spec, hinv.2, List.drop_drop]
      congr 1
      omega
    refine ⟨rfl, hbytes, fun m => ?_⟩
    rw [← hbytes]
    exact bLimitedRead_prefix m _

/-- Witness for `streamAmount_cancel_repositions` at the spec's scenario
S3 shape: `streamAmount(7)` over the nine upstream bytes, one pull
delivering the first chunk, then cancel: the parent is repositioned to
`[8, 9]` and the next `limitedRead` delivers a prefix of `[8, 9]`. -/
theorem streamAmount_cancel_repositions_witness :
    ((dStreamCancel (dStreamPulls 1 (dStreamAmount 7 ⟨[[1, 2, 3], [4, 5, 6], [7, 8, 9]], none⟩))).consumed = true
      ∧ (dStreamCancel (dStreamPulls 1 (dStreamAmount 7 ⟨[[1, 2, 3], [4, 5, 6], [7, 8, 9]], none⟩))).src.bytes = [8, 9]
      ∧ (dLimitedRead 5 (dStreamCancel (dStreamPulls 1 (dStreamAmount 7 ⟨[[1, 2, 3], [4, 5, 6], [7, 8, 9]], none⟩))).src).1.bytes <+: [8, 9])
    ∧ ((bStreamCancel (bStreamPulls [3] (bStreamAmount 7 ⟨[1, 2, 3, 4, 5, 6, 7, 8, 9], []⟩))).consumed = true
      ∧ (bStreamCancel (bStreamPulls [3] (bStreamAmount 7 ⟨[1, 2, 3, 4, 5, 6, 7, 8, 9], []⟩))).src.bytes = [8, 9]
      ∧ (bLimitedRead 5 (bStreamCancel (bStreamPulls [3] (bStreamAmount 7 ⟨[1, 2, 3, 4, 5, 6, 7, 8, 9], []⟩))).src).1.bytes <+: [8, 9]) := by
  constructor
  · have h := streamAmount_cancel_repositions.1 7 ⟨[[1, 2, 3], [4, 5, 6], [7, 8, 9]], none⟩ 1
      (by decide) (by decide)
    exact ⟨h.1, h.2.1, h.2.2 5⟩
  · have h := streamAmount_cancel_repositions.2 7 ⟨[1, 2, 3, 4, 5, 6, 7, 8, 9], []⟩ [3]
      (by decide) (by decide) (by decide)
    exact ⟨h.1, h.2.1, h.2.2 5⟩

/-- C5 counterexample.  The claim says `limitedRead(max)` never returns an
empty non-done slice for any upstream chunking "including possibly empty
chunks".  But when the upstream delivers an empty chunk, the default
variant's `limitedRead` passes it through unchanged: the `value.byteLength
> maxSize` split does not fire for a 0-length chunk, so the caller
receives a non-done result whose slice is empty. -/
theorem limitedRead_empty_chunk_cex :
    (dLimitedRead 5 ⟨[[]], none⟩).1 = .value [] := by decide

/-- Claim C5 (amended): for every `max ≥ 1`, `limitedRead(max)` returns
either a done result or a value slice of length between 1 and `max`
inclusive, *provided* (for the default variant) that the upstream chunks
and any buffered leftover are nonempty; the BYOB variant needs no such
proviso.  When the upstream delivers an empty chunk, the default variant
returns an empty non-done slice (see `limitedRead_empty_chunk_cex`). -/
theorem limitedRead_result_bounds :
    (∀ (maxSize : Nat) (s : DState), 1 ≤ maxSize →
        (∀ c ∈ s.chunks, c ≠ []) → (∀ v, s.leftOvers = some v → v ≠ []) →
        (dLimitedRead maxSize s).1 = .done
        ∨ ∃ v, (dLimitedRead maxSize s).1 = .value v ∧ 1 ≤ v.length ∧ v.length ≤ maxSize)
    ∧ (∀ (maxSize : Nat) (st : BState), 1 ≤ maxSize →
        (bLimitedRead maxSize st).1 = .done
        ∨ ∃ v, (bLimitedRead maxSize st).1 = .value v ∧ 1 ≤ v.length ∧ v.length ≤ maxSize) := by
  constructor
  · intro maxSize s hmax hchunks hleft
    rcases s with ⟨chunks, lo⟩
    cases lo with
    | some w =>
      have hw : w ≠ [] := hleft w rfl
      by_cases hlen : w.length > maxSize
      · refine Or.inr ⟨w.take maxSize, ?_, ?_, ?_⟩
        · simp [dLimitedRead, hlen]
        · simp [List.length_take]
          omega
        · simp [List.length_take]
      · refine Or.inr ⟨w, ?_, ?_, ?_⟩
        · simp [dLimitedRead, hlen]
        · have := List.length_pos.mpr hw
          omega
        · omega
    | none =>
      cases chunks with
      | nil => exact Or.inl rfl
      | cons c rest =>
        have hc : c ≠ [] := hchunks c (by simp)
        by_cases hlen : c.length > maxSize
        · refine Or.inr ⟨c.take maxSize, ?_, ?_, ?_⟩
          · simp [dLimitedRead, hlen]
          · simp [List.length_take]
            omega
          · simp [List.length_take]
        · refine Or.inr ⟨c, ?_, ?_, ?_⟩
          · simp [dLimitedRead, hlen]
          · have := List.length_pos.mpr hc
            omega
          · omega
  · intro maxSize st hmax
    cases hr : (bLimitedRead maxSize st).1 with
    | done => exact Or.inl rfl
    | value v =>
      have hv := byobRead_value maxSize st v hmax hr
      exact Or.inr ⟨v, rfl, hv.1, hv.2.1⟩

/-- Witness for `limitedRead_result_bounds`: a nonempty-chunk default
reader and a BYOB reader, both bounded by `max = 2`. -/
theorem limitedRead_result_bounds_witness :
    ((dLimitedRead 2 ⟨[[1, 2, 3]], none⟩).1 = .done
      ∨ ∃ v, (dLimitedRead 2 ⟨[[1, 2, 3]], none⟩).1 = .value v ∧ 1 ≤ v.length ∧ v.length ≤ 2)
    ∧ ((bLimitedRead 2 ⟨[1, 2, 3], []⟩).1 = .done
      ∨ ∃ v, (bLimitedRead 2 ⟨[1, 2, 3], []⟩).1 = .value v ∧ 1 ≤ v.length ∧ v.length ≤ 2) :=
  ⟨limitedRead_result_bounds.1 2 ⟨[[1, 2, 3]], none⟩ (by decide) (by decide) (by decide),
    limitedRead_result_bounds.2 2 ⟨[1, 2, 3], []⟩ (by decide)⟩

/-! ## Data model (`src/write.ts`, `src/read.ts`, `src/unnamed/part_004`)

Names are modelled as their UTF-8 byte sequences (`TextEncoder` /
`TextDecoder` are inverse on them, and a string ends with `"/"` exactly
when its UTF-8 bytes end with byte 47).  Extended timestamps are modelled
as UNIX seconds (`Date.getTime() / 1000`), the granularity at which the
format stores them. -/

structure ExtendedTimestamps where
  modifyTime : Option Int
  accessTime : Option Int
  createTime : Option Int
  deriving DecidableEq, Repr

/-- `WriteBody`: either raw bytes with their size and CRC-32, or
pre-deflated bytes with both sizes and the CRC-32 of the original. -/
inductive WriteBody where
  | stored (originalSize originalCrc : Nat) (stream : List Nat)
  | deflate (originalSize compressedSize originalCrc : Nat) (stream : List Nat)
  deriving DecidableEq, Repr

/-- `WriteEntry`: a file with a body, or a directory. -/
inductive WriteEntry where
  | file (name : List Nat) (extendedTimestamps : Option ExtendedTimestamps) (body : WriteBody)
  | directory (name : List Nat) (extendedTimestamps : Option ExtendedTimestamps)
  deriving DecidableEq, Repr

def entryName : WriteEntry → List Nat
  | .file name _ _ => name
  | .directory name _ => name

def entryTs : WriteEntry → Option ExtendedTimestamps
  | .file _ ts _ => ts
  | .directory _ ts => ts

/-- `entry.type === "file" && entry.body.compressed`. -/
def entryIsDeflate : WriteEntry → Bool
  | .file _ _ (.deflate _ _ _ _) => true
  | _ => false

/-- The compression-method header field the writer emits (8 for a
deflate-precompressed file body, otherwise the zero the buffer was
allocated with). -/
def entryMethod (e : WriteEntry) : Nat := if entryIsDeflate e then 8 else 0

/-- The CRC-32 header field: `entry.body.originalCrc` for files, the zero
fill for directories. -/
def entryCrc : WriteEntry → Nat
  | .file _ _ (.stored _ crc _) => crc
  | .file _ _ (.deflate _ _ crc _) => crc
  | .directory _ _ => 0

/-- `originalSize` as used by `createExtraField` (0 for directories). -/
def entryOriginalSize : WriteEntry → Nat
  | .file _ _ (.stored os _ _) => os
  | .file _ _ (.deflate os _ _ _) => os
  | .directory _ _ => 0

/-- `compressedSize` as used by `createExtraField`: the deflate
`compressedSize`, the stored `originalSize`, or 0 for directories. -/
def entryCompressedSize : WriteEntry → Nat
  | .file _ _ (.stored os _ _) => os
  | .file _ _ (.deflate _ cs _ _) => cs
  | .directory _ _ => 0

/-- The bytes of the entry's body stream (empty for directories). -/
def entryStream : WriteEntry → List Nat
  | .file _ _ (.stored _ _ s) => s
  | .file _ _ (.deflate _ _ _ s) => s
  | .directory _ _ => []

/-! ## Extra-field encoder (`createExtraField`, `src/write.ts` 306-381) -/

/-- The flag byte of the extended-timestamp record: bit 0x1/0x2/0x4 for a
present modify/access/create time. -/
def tsFlags (t : ExtendedTimestamps) : Nat :=
  (if t.modifyTime.isSome then 1 else 0) |||
    (if t.accessTime.isSome then 2 else 0) |||
    (if t.createTime.isSome then 4 else 0)

/-- Payload of the `0x5455` record: the flag byte followed by the set
times, each a little-endian signed 32-bit UNIX-seconds value, in
modify/access/create order. -/
def tsPayload (t : ExtendedTimestamps) : List Nat :=
  tsFlags t ::
    ((match t.modifyTime with | none => [] | some v => u32LEInt v)
      ++ (match t.accessTime with | none => [] | some v => u32LEInt v)
      ++ (match t.createTime with | none => [] | some v => u32LEInt v))

/-- The complete `0x5455` TLV record (`xLen` is the payload length). -/
def tsRecord (t : ExtendedTimestamps) : List Nat :=
  u16LE 0x5455 ++ u16LE (tsPayload t).length ++ tsPayload t

/-- `createExtraField(entry, lfhOffset?)`: the ZIP64 record (tag `0x1`,
length 16 for a local header, 24 — including the local-file-header offset
— for a central header), followed by the extended-timestamp record when
the entry carries an `extendedTimestamps` object; `undefined` when the
final write position `pos` is 0. -/
def createExtraField (e : WriteEntry) (lfhOffset : Option Nat) : Option (List Nat) :=
  let zip64 : List Nat :=
    u16LE 0x1 ++ (u16LE (match lfhOffset with | none => 16 | some _ => 24)
      ++ (u64LE (entryOriginalSize e) ++ (u64LE (entryCompressedSize e)
      ++ (match lfhOffset with | none => [] | some o => u64LE o))))
  let ts : List Nat := match entryTs e with | none => [] | some t => tsRecord t
  let pos := zip64.length + ts.length
  if pos = 0 then none else some (zip64 ++ ts)

/-! ## Extra-field decoder (`src/unnamed/part_004`) -/

structure Zip64ExtendedInformation where
  originalSize : Nat
  compressedSize : Nat
  deriving DecidableEq, Repr

structure ParsedExtraFields where
  zip64 : Option Zip64ExtendedInformation
  extendedTimestamps : Option ExtendedTimestamps
  deriving DecidableEq, Repr

/-- `splitExtraFieldParts`: iterate the TLV records while at least four
bytes remain; fail with "Invalid extra field" when a declared length
overruns the area.  `fuel` bounds the iteration count (each step consumes
at least 4 bytes; the wrapper supplies enough). -/
def extraPartsF : Nat → List Nat → Except ZErr (List (Nat × List Nat))
  | 0, _ => .ok []
  | fuel + 1, l =>
    if l.length < 4 then .ok []
    else
      let tag := getU16 l 0
      let len := getU16 l 2
      if l.length < 4 + len then .error .invalidExtraField
      else
        match extraPartsF fuel (l.drop (4 + len)) with
        | .error e => .error e
        | .ok rest => .ok ((tag, (l.drop 4).take len) :: rest)

def splitExtraFieldParts (l : List Nat) : Except ZErr (List (Nat × List Nat)) :=
  extraPartsF (l.length + 1) l

/-- Decode a `0x5455` payload: the flag byte, then one `getInt32` per set
bit.  A `DataView` read past the end of the payload throws a RangeError;
since the read positions only grow, that is equivalent to checking the
final position against the payload length. -/
def parseTsPayload (data : List Nat) : Except ZErr ExtendedTimestamps :=
  if data.length < 1 then .error .rangeOutOfBounds
  else
    let flags := getU8 data 0
    let mt : Option Int := if flags &&& 1 ≠ 0 then some (toInt32 (getU32 data 1)) else none
    let posA := if flags &&& 1 ≠ 0 then 5 else 1
    let av : Option Int := if flags &&& 2 ≠ 0 then some (toInt32 (getU32 data posA)) else none
    let posC := if flags &&& 2 ≠ 0 then posA + 4 else posA
    let cv : Option Int := if flags &&& 4 ≠ 0 then some (toInt32 (getU32 data posC)) else none
    let posEnd := if flags &&& 4 ≠ 0 then posC + 4 else posC
    if data.length < posEnd then .error .rangeOutOfBounds
    else .ok ⟨mt, av, cv⟩

/-- Handle one TLV record of `parseExtraField`'s loop: tag `0x1` replaces
the ZIP64 sizes, tag `0x5455` replaces the timestamps, other tags are
skipped. -/
def applyExtraPart (acc : ParsedExtraFields) (p : Nat × List Nat) : Except ZErr ParsedExtraFields :=
  if p.1 = 0x1 then
    if p.2.length < 16 then .error .rangeOutOfBounds
    else .ok { acc with zip64 := some ⟨getU64 p.2 0, getU64 p.2 8⟩ }
  else if p.1 = 0x5455 then
    match parseTsPayload p.2 with
    | .error e => .error e
    | .ok t => .ok { acc with extendedTimestamps := some t }
  else .ok acc

/-- `parseExtraField(extraField)`. -/
def parseExtraField (extraField : List Nat) : Except ZErr ParsedExtraFields :=
  match splitExtraFieldParts extraField with
  | .error e => .error e
  | .ok parts => parts.foldlM applyExtraPart ⟨none, none⟩

/-! ## Writer (`src/write.ts`) -/

/-- The 30-byte local file header built by `writeLocalFileEntry`:
signature, version-needed 45, zero flags, the compression method, zeroed
MS-DOS time and date, the CRC field, both size fields sentinel-filled with
`0xffffffff`, then filename and extra-field lengths. -/
def localFileHeader (method crcField nameLen extraLen : Nat) : List Nat :=
  u32LE 0x04034b50 ++ (u16LE 45 ++ (u16LE 0 ++ (u16LE method ++ (u16LE 0 ++ (u16LE 0
    ++ (u32LE crcField ++ (u32LE 0xffffffff ++ (u32LE 0xffffffff
    ++ (u16LE nameLen ++ u16LE extraLen)))))))))

/-- The local extra field actually written (`createExtraField(entry)`,
empty when `undefined` — which never happens, see
`createExtraField_always_present`). -/
def entryExtraField (e : WriteEntry) : List Nat := (createExtraField e none).getD []

/-- The local header the writer emits for `e`. -/
def entryLocalHeader (e : WriteEntry) : List Nat :=
  localFileHeader (entryMethod e) (entryCrc e) (entryName e).length (entryExtraField e).length

/-- Everything `writeLocalFileEntry` sends downstream for one entry:
header, UTF-8 filename, extra field, then the body bytes piped through
the Exact-Bytes Transform. -/
def entryBytes (e : WriteEntry) : List Nat :=
  entryLocalHeader e ++ entryName e ++ entryExtraField e ++ entryStream e

/-- `writeLocalFileEntry`: fails *FilenameTooLong* for a name of `2^16`
bytes or more; for a file, piping the body through
`ExactBytesTransformStream(len)` fails when the stream's total differs
from the declared length (`compressedSize` for deflate bodies,
`originalSize` for stored ones). -/
def writeLocalFileEntry (e : WriteEntry) : Except ZErr (List Nat) :=
  if (entryName e).length ≥ 2 ^ 16 then .error .filenameTooLong
  else match e with
    | .directory _ _ => .ok (entryBytes e)
    | .file _ _ _ =>
      if (entryStream e).length > entryCompressedSize e then .error .byteSizeExceeded
      else if (entryStream e).length < entryCompressedSize e then .error .byteSizeShortfall
      else .ok (entryBytes e)

/-- The 46-byte central directory file header the entry's thunk produces:
signature, version-made-by 45, version-needed 45, flags 0, method, zeroed
time/date, CRC, sentinel sizes, name/extra/comment lengths, disk number,
attributes, and the sentinel local-file-header offset. -/
def centralFileHeader (e : WriteEntry) (lfhOffset : Nat) : List Nat :=
  u32LE 0x02014b50 ++ (u16LE 45 ++ (u16LE 45 ++ (u16LE 0 ++ (u16LE (entryMethod e)
    ++ (u16LE 0 ++ (u16LE 0 ++ (u32LE (entryCrc e) ++ (u32LE 0xffffffff ++ (u32LE 0xffffffff
    ++ (u16LE (entryName e).length
    ++ (u16LE ((createExtraField e (some lfhOffset)).getD []).length
    ++ (u16LE 0 ++ (u16LE 0 ++ (u16LE 0 ++ (u32LE 0 ++ u32LE 0xffffffff)))))))))))))))

/-- The byte blocks the central-directory thunk pushes for one entry. -/
def centralBytes (e : WriteEntry) (lfhOffset : Nat) : List Nat :=
  centralFileHeader e lfhOffset ++ entryName e ++ (createExtraField e (some lfhOffset)).getD []

/-- The trailing 98 bytes (`ending`): ZIP64 end-of-central-directory
record (56 bytes), ZIP64 EOCD locator (20 bytes), and the sentinel-filled
plain end-of-central-directory record (22 bytes). -/
def endingBytes (count sizeCD offsetCD : Nat) : List Nat :=
  (u32LE 0x06064b50 ++ (u64LE 44 ++ (u16LE 45 ++ (u16LE 45 ++ (u32LE 0 ++ (u32LE 0
    ++ (u64LE count ++ (u64LE count ++ (u64LE sizeCD ++ u64LE offsetCD)))))))))
  ++ ((u32LE 0x07064b50 ++ (u32LE 0 ++ (u64LE (offsetCD + sizeCD) ++ u32LE 1)))
  ++ (u32LE 0x06054b50 ++ (u16LE 0 ++ (u16LE 0 ++ (u16LE 0xffff ++ (u16LE 0xffff
    ++ (u32LE 0xffffffff ++ (u32LE 0xffffffff ++ u16LE 0))))))))

/-- The per-entry loop of `write()`: emit each local entry, tracking
`totalBytesWritten` (each entry's local-file-header offset) and collecting
the central-directory byte blocks. -/
def writeEntries : List WriteEntry → Nat → Except ZErr (List Nat × List (List Nat))
  | [], _ => .ok ([], [])
  | e :: rest, offset =>
    match writeLocalFileEntry e with
    | .error err => .error err
    | .ok w =>
      match writeEntries rest (offset + w.length) with
      | .error err => .error err
      | .ok (ws, cs) => .ok (w ++ ws, centralBytes e offset :: cs)

/-- `write(entries, {omitCentralDirectory})`: the full byte stream — local
entries, then (unless omitted) the central directory and the three
end-of-archive records. -/
def write (entries : List WriteEntry) (omitCentralDirectory : Bool) : Except ZErr (List Nat) :=
  match writeEntries entries 0 with
  | .error err => .error err
  | .ok (locals, centrals) =>
    if omitCentralDirectory then .ok locals
    else
      let offsetCD := locals.length
      let cd := centrals.flatten
      .ok (locals ++ cd ++ endingBytes entries.length cd.length offsetCD)

/-! ## Reader (`src/read.ts`)

`read()` yields entries lazily and requires the consumer to stream or
autodrain each body before the next iteration.  We model the canonical
consumer of claim C1: every file body is opened with `body.stream()` and
piped to completion, and directory bodies are autodrained (as `read()`
itself does).  File entries carry the on-wire body bytes together with
the compression method; `decodedBody` applies the (black-box) raw-DEFLATE
decompressor exactly where `stream()` does. -/

inductive REntry where
  | file (name : List Nat) (extendedTimestamps : Option ExtendedTimestamps)
      (originalSize compressedSize crc method : Nat) (bodyWire : List Nat)
  | directory (name : List Nat) (extendedTimestamps : Option ExtendedTimestamps)
  deriving DecidableEq, Repr

/-- The bytes `body.stream()` delivers: the wire bytes through
`decompressDeflateRaw` for method 8 (`inflate crc originalSize wire`, the
decompressor being the platform black box), the wire bytes unchanged for
method 0. -/
def decodedBody (inflate : Nat → Nat → List Nat → List Nat) : REntry → List Nat
  | .file _ _ os _ crc m w => if m = 8 then inflate crc os w else w
  | .directory _ _ => []

/-- One iteration of the parse loop after the 30-byte header passed the
signature test: the fixed-header checks and fields, the filename and
extra field via `readAmountStrict`, the ZIP64 size override, the
directory/file classification on a trailing `"/"`, and the body (streamed
in full through `ExactBytesTransformStream(compressedSize)` for files —
short input fails — or autodrained for directories). -/
def parseLocalEntry (bytes : List Nat) : Except ZErr (REntry × List Nat) :=
  let version := getU16 bytes 4
  if version > 45 then .error .unsupportedVersion
  else
  let flags := getU16 bytes 6
  if flags &&& 0x1 ≠ 0 ∨ flags &&& 0x40 ≠ 0 then .error .encryptedUnsupported
  else if flags &&& 0x8 ≠ 0 then .error .dataDescriptorUnsupported
  else if flags &&& 0x20 ≠ 0 then .error .patchUnsupported
  else
  let method := getU16 bytes 8
  let crc := getU32 bytes 14
  let compressedSize32 := getU32 bytes 18
  let uncompressedSize32 := getU32 bytes 22
  let fileNameLength := getU16 bytes 26
  let extraFieldLength := getU16 bytes 28
  let r0 := bytes.drop 30
  if r0.length < fileNameLength then .error .unexpectedEnd
  else
  let fileName := r0.take fileNameLength
  let r1 := r0.drop fileNameLength
  if r1.length < extraFieldLength then .error .unexpectedEnd
  else
  let extraFieldRaw := r1.take extraFieldLength
  let r2 := r1.drop extraFieldLength
  match parseExtraField extraFieldRaw with
  | .error e => .error e
  | .ok parsed =>
    let compressedSize := match parsed.zip64 with
      | some z => z.compressedSize
      | none => compressedSize32
    let uncompressedSize := match parsed.zip64 with
      | some z => z.originalSize
      | none => uncompressedSize32
    if fileName.getLast? = some 47 then
      .ok (.directory fileName parsed.extendedTimestamps, r2.drop compressedSize)
    else if method ≠ 0 ∧ method ≠ 8 then .error .unknownCompressionMethod
    else if r2.length < compressedSize then .error .byteSizeShortfall
    else .ok (.file fileName parsed.extendedTimestamps uncompressedSize compressedSize crc
        method (r2.take compressedSize), r2.drop compressedSize)

/-- The parse loop of `read()`: a clean end on zero header bytes,
*UnexpectedEnd* on a short header, a clean stop on the central-directory
signature, *BadSignature* otherwise, then one local entry per iteration.
`fuel` bounds the iteration count; every iteration consumes at least 30
bytes, so the wrapper's allowance can never run out. -/
def readLoopF : Nat → List Nat → Except ZErr (List REntry)
  | 0, _ => .error .unexpectedEnd
  | fuel + 1, bytes =>
    if bytes.isEmpty then .ok []
    else if bytes.length < 30 then .error .unexpectedEnd
    else
      let signature := toInt32 (getU32 bytes 0)
      if signature = 0x02014b50 then .ok []
      else if signature ≠ 0x04034b50 then .error .badSignature
      else match parseLocalEntry bytes with
        | .error e => .error e
        | .ok (entry, rest) =>
          match readLoopF fuel rest with
          | .error e => .error e
          | .ok es => .ok (entry :: es)

/-- `read()` driven to completion by the canonical consumer: the list of
entries yielded, or the error that terminates the iteration. -/
def readAll (bytes : List Nat) : Except ZErr (List REntry) :=
  readLoopF (bytes.length + 1) bytes

/-- `read()` composed with `write()` (claim C1's round trip). -/
def roundTrip (entries : List WriteEntry) (omitCentralDirectory : Bool) :
    Except ZErr (List REntry) :=
  match write entries omitCentralDirectory with
  | .error e => .error e
  | .ok bytes => readAll bytes

/-- The entry the reader should recover from a well-formed write entry. -/
def toREntry : WriteEntry → REntry
  | .file name ts (.stored os crc s) => .file name ts os os crc 0 s
  | .file name ts (.deflate os cs crc s) => .file name ts os cs crc 8 s
  | .directory name ts => .directory name ts

/-! ## Well-formed write entries

"Well-formed entries that `write()` accepts": directory names end in `/`
(byte 47) and file names do not (the reader's classification criterion),
names fit the 16-bit length field, CRCs are unsigned 32-bit values, sizes
fit the 64-bit ZIP64 fields, the body stream carries exactly the declared
byte count, and extended timestamps fit the signed 32-bit seconds field
(the spec itself notes that dates outside that range are truncated). -/

def tsOkB : Option Int → Bool
  | none => true
  | some v => decide (-(2 ^ 31) ≤ v) && decide (v < 2 ^ 31)

def tsRangeOk : Option ExtendedTimestamps → Bool
  | none => true
  | some t => tsOkB t.modifyTime && tsOkB t.accessTime && tsOkB t.createTime

def wfEntry : WriteEntry → Bool
  | .directory name ts =>
      decide (name.getLast? = some 47) && decide (name.length < 2 ^ 16) && tsRangeOk ts
  | .file name ts body =>
      decide (name.getLast? ≠ some 47) && decide (name.length < 2 ^ 16) && tsRangeOk ts
      && (match body with
          | .stored os crc s =>
              decide (s.length = os) && decide (crc < 2 ^ 32) && decide (os < 2 ^ 64)
          | .deflate os cs crc s =>
              decide (s.length = cs) && decide (crc < 2 ^ 32)
              && decide (os < 2 ^ 64) && decide (cs < 2 ^ 64))

/-! ## Round-trip lemmas -/

theorem toUint32_lt (t : Int) : toUint32 t < 2 ^ 32 := by
  unfold toUint32
  omega

theorem read_u32LEInt (v : Int) (r : List Nat) (h1 : -(2 ^ 31) ≤ v) (h2 : v < 2 ^ 31) :
    toInt32 (getU32 (u32LEInt v ++ r) 0) = v := by
  rw [u32LEInt, getU32_u32LE, Nat.mod_eq_of_lt (toUint32_lt v)]
  exact toInt32_toUint32 v h1 h2

theorem length_u32LEInt (v : Int) : (u32LEInt v).length = 4 := rfl

theorem parseTsPayload_tsPayload (t : ExtendedTimestamps)
    (h : tsRangeOk (some t) = true) : parseTsPayload (tsPayload t) = .ok t := by
  rcases t with ⟨mo, ao, co⟩
  simp only [tsRangeOk] at h
  rcases mo with _ | m <;> rcases ao with _ | a <;> rcases co with _ | c <;>
    simp only [tsOkB, Bool.and_eq_true, decide_eq_true_eq] at h <;>
    simp only [parseTsPayload, tsPayload]
  · simp only [show tsFlags ⟨none, none, none⟩ = 0 by simp [tsFlags]]
    simp [getU8, length_u32LEInt]
  · simp only [show tsFlags ⟨none, none, some c⟩ = 4 by simp [tsFlags]]
    simp [getU8, length_u32LEInt, show (4 &&& 1 : Nat) = 0 by decide,
      show (4 &&& 2 : Nat) = 0 by decide, show (4 &&& 4 : Nat) = 4 by decide]
    exact read_u32LEInt c [] (by omega) (by omega)
  · simp only [show tsFlags ⟨none, some a, none⟩ = 2 by simp [tsFlags]]
    simp [getU8, length_u32LEInt, show (2 &&& 1 : Nat) = 0 by decide,
      show (2 &&& 2 : Nat) = 2 by decide, show (2 &&& 4 : Nat) = 0 by decide]
    exact read_u32LEInt a [] (by omega) (by omega)
  · simp only [show tsFlags ⟨none, some a, some c⟩ = 6 by simp [tsFlags]]
    simp [getU8, length_u32LEInt, show (6 &&& 1 : Nat) = 0 by decide,
      show (6 &&& 2 : Nat) = 2 by decide, show (6 &&& 4 : Nat) = 4 by decide]
    constructor
    · exact read_u32LEInt a (u32LEInt c) (by omega) (by omega)
    · exact read_u32LEInt c [] (by omega) (by omega)
  · simp only [show tsFlags ⟨some m, none, none⟩ = 1 by simp [tsFlags]]
    simp [getU8, length_u32LEInt, show (1 &&& 1 : Nat) = 1 by decide,
      show (1 &&& 2 : Nat) = 0 by decide, show (1 &&& 4 : Nat) = 0 by decide]
    exact read_u32LEInt m [] (by omega) (by omega)
  · simp only [show tsFlags ⟨some m, none, some c⟩ = 5 by simp [tsFlags]]
    simp [getU8, length_u32LEInt, show (5 &&& 1 : Nat) = 1 by decide,
      show (5 &&& 2 : Nat) = 0 by decide, show (5 &&& 4 : Nat) = 4 by decide]
    constructor
    · exact read_u32LEInt m (u32LEInt c) (by omega) (by omega)
    · exact read_u32LEInt c [] (by omega) (by omega)
  · simp only [show tsFlags ⟨some m, some a, none⟩ = 3 by simp [tsFlags]]
    simp [getU8, length_u32LEInt, show (3 &&& 1 : Nat) = 1 by decide,
      show (3 &&& 2 : Nat) = 2 by decide, show (3 &&& 4 : Nat) = 0 by decide]
    constructor
    · exact read_u32LEInt m (u32LEInt a) (by omega) (by omega)
    · exact read_u32LEInt a [] (by omega) (by omega)
  · simp only [show tsFlags ⟨some m, some a, some c⟩ = 7 by simp [tsFlags]]
    simp [getU8, length_u32LEInt, show (7 &&& 1 : Nat) = 1 by decide,
      show (7 &&& 2 : Nat) = 2 by decide, show (7 &&& 4 : Nat) = 4 by decide]
    refine ⟨?_, ?_, ?_⟩
    · exact read_u32LEInt m (u32LEInt a ++ u32LEInt c) (by omega) (by omega)
    · exact read_u32LEInt a (u32LEInt c) (by omega) (by omega)
    · exact read_u32LEInt c [] (by omega) (by omega)

/-- The ZIP64 record `createExtraField` writes first. -/
def zip64Record (e : WriteEntry) (lfhOffset : Option Nat) : List Nat :=
  u16LE 0x1 ++ (u16LE (match lfhOffset with | none => 16 | some _ => 24)
    ++ (u64LE (entryOriginalSize e) ++ (u64LE (entryCompressedSize e)
    ++ (match lfhOffset with | none => [] | some o => u64LE o))))

/-- The optional trailing extended-timestamp record. -/
def tsRecordOpt : Option ExtendedTimestamps → List Nat
  | none => []
  | some t => tsRecord t

theorem tsPayload_length_le (t : ExtendedTimestamps) : (tsPayload t).length ≤ 13 := by
  rcases t with ⟨mo, ao, co⟩
  cases mo <;> cases ao <;> cases co <;>
    simp [tsPayload, length_u32LEInt]

theorem createExtraField_eq (e : WriteEntry) (lfhOffset : Option Nat) :
    createExtraField e lfhOffset = some (zip64Record e lfhOffset ++ tsRecordOpt (entryTs e)) := by
  cases lfhOffset <;> cases hts : entryTs e <;>
    simp [createExtraField, zip64Record, tsRecordOpt, hts, u16LE, u64LE, tsRecord]

theorem entryExtraField_eq (e : WriteEntry) :
    entryExtraField e = zip64Record e none ++ tsRecordOpt (entryTs e) := by
  rw [entryExtraField, createExtraField_eq]
  rfl

theorem extraPartsF_nil (fuel : Nat) : extraPartsF fuel [] = .ok [] := by
  cases fuel <;> simp [extraPartsF]

/-- The record list of an optional trailing timestamp record. -/
def tsPartsOpt : Option ExtendedTimestamps → List (Nat × List Nat)
  | none => []
  | some t => [(0x5455, tsPayload t)]

theorem extraPartsF_succ (fuel : Nat) (l : List Nat) :
    extraPartsF (fuel + 1) l =
      if l.length < 4 then .ok []
      else if l.length < 4 + getU16 l 2 then .error .invalidExtraField
      else
        match extraPartsF fuel (l.drop (4 + getU16 l 2)) with
        | .error e => .error e
        | .ok rest => .ok ((getU16 l 0, (l.drop 4).take (getU16 l 2)) :: rest) := rfl

theorem splitParts_tsRecord (t : ExtendedTimestamps) (f : Nat) :
    extraPartsF (f + 1) (tsRecord t) = .ok [(0x5455, tsPayload t)] := by
  have hpay : (tsPayload t).length ≤ 13 := tsPayload_length_le t
  have hlen : (tsRecord t).length = 4 + (tsPayload t).length := by
    simp [tsRecord, u16LE]
    omega
  have h0 : getU16 (tsRecord t) 0 = 0x5455 := rfl
  have h2 : getU16 (tsRecord t) 2 = (tsPayload t).length := by
    have h := getU16_u16LE (tsPayload t).length (tsPayload t)
    rw [Nat.mod_eq_of_lt (by omega)] at h
    exact h
  have hdata : ((tsRecord t).drop 4).take (tsPayload t).length = tsPayload t := by
    have hd : (tsRecord t).drop 4 = tsPayload t := rfl
    rw [hd, List.take_length]
  have hrest : (tsRecord t).drop (4 + (tsPayload t).length) = [] :=
    List.drop_of_length_le (by omega)
  rw [extraPartsF_succ, h0, h2, hdata, hrest, extraPartsF_nil,
    if_neg (by rw [hlen]; omega), if_neg (by rw [hlen]; omega)]

theorem splitParts_entryExtra (e : WriteEntry) :
    splitExtraFieldParts (entryExtraField e)
      = .ok ((1, u64LE (entryOriginalSize e) ++ u64LE (entryCompressedSize e))
          :: tsPartsOpt (entryTs e)) := by
  rw [splitExtraFieldParts, entryExtraField_eq]
  have hlen : (zip64Record e none ++ tsRecordOpt (entryTs e)).length
      = 20 + (tsRecordOpt (entryTs e)).length := by
    simp [zip64Record, u16LE, u64LE]
    omega
  have h0 : getU16 (zip64Record e none ++ tsRecordOpt (entryTs e)) 0 = 1 := rfl
  have h2 : getU16 (zip64Record e none ++ tsRecordOpt (entryTs e)) 2 = 16 := rfl
  have hdata : ((zip64Record e none ++ tsRecordOpt (entryTs e)).drop 4).take 16
      = u64LE (entryOriginalSize e) ++ u64LE (entryCompressedSize e) := rfl
  have hdrop : (zip64Record e none ++ tsRecordOpt (entryTs e)).drop (4 + 16)
      = tsRecordOpt (entryTs e) := rfl
  rw [extraPartsF_succ, h0, h2, hdata, hdrop, if_neg (by rw [hlen]; omega),
    if_neg (by rw [hlen]; omega)]
  cases hts : entryTs e with
  | none =>
    simp [tsRecordOpt, tsPartsOpt, extraPartsF_nil]
  | some t =>
    rw [hts] at hlen
    rw [hlen, show (20 : Nat) + (tsRecordOpt (some t)).length
        = (19 + (tsRecordOpt (some t)).length) + 1 by omega]
    simp only [tsRecordOpt, tsPartsOpt]
    rw [splitParts_tsRecord]

theorem getU64_payload_fst (os cs : Nat) :
    getU64 (u64LE os ++ u64LE cs) 0 = os % 2 ^ 64 :=
  getU64_u64LE os (u64LE cs)

theorem getU64_payload_snd (os cs : Nat) :
    getU64 (u64LE os ++ u64LE cs) 8 = cs % 2 ^ 64 :=
  getU64_u64LE cs []

theorem parseExtraField_entryExtra (e : WriteEntry)
    (hos : entryOriginalSize e < 2 ^ 64) (hcs : entryCompressedSize e < 2 ^ 64)
    (hts : tsRangeOk (entryTs e) = true) :
    parseExtraField (entryExtraField e)
      = .ok ⟨some ⟨entryOriginalSize e, entryCompressedSize e⟩, entryTs e⟩ := by
  unfold parseExtraField
  rw [splitParts_entryExtra]
  have hz : applyExtraPart ⟨none, none⟩
        (1, u64LE (entryOriginalSize e) ++ u64LE (entryCompressedSize e))
      = .ok ⟨some ⟨entryOriginalSize e, entryCompressedSize e⟩, none⟩ := by
    unfold applyExtraPart
    rw [if_pos rfl, if_neg (by simp [u64LE])]
    rw [getU64_payload_fst, getU64_payload_snd,
      Nat.mod_eq_of_lt hos, Nat.mod_eq_of_lt hcs]
  cases hts' : entryTs e with
  | none =>
    simp only [tsPartsOpt]
    simp [List.foldlM, hz]
  | some t =>
    rw [hts'] at hts
    simp only [tsPartsOpt]
    have hts2 : applyExtraPart ⟨some ⟨entryOriginalSize e, entryCompressedSize e⟩, none⟩
          (0x5455, tsPayload t)
        = .ok ⟨some ⟨entryOriginalSize e, entryCompressedSize e⟩, some t⟩ := by
      unfold applyExtraPart
      rw [if_neg (by simp), if_pos rfl, parseTsPayload_tsPayload t hts]
    simp [List.foldlM, hz]
    exact hts2

theorem localFileHeader_length (m c nl xl : Nat) :
    (localFileHeader m c nl xl).length = 30 := rfl

theorem lfh_sig (m c nl xl : Nat) (r : List Nat) :
    getU32 (localFileHeader m c nl xl ++ r) 0 = 0x04034b50 := by
  have h0 : getU8 (localFileHeader m c nl xl ++ r) 0 = 80 := rfl
  have h1 : getU8 (localFileHeader m c nl xl ++ r) 1 = 75 := rfl
  have h2 : getU8 (localFileHeader m c nl xl ++ r) 2 = 3 := rfl
  have h3 : getU8 (localFileHeader m c nl xl ++ r) 3 = 4 := rfl
  show getU8 (localFileHeader m c nl xl ++ r) 0 + 256 * getU8 (localFileHeader m c nl xl ++ r) 1
    + 256 ^ 2 * getU8 (localFileHeader m c nl xl ++ r) 2
    + 256 ^ 3 * getU8 (localFileHeader m c nl xl ++ r) 3 = 0x04034b50
  rw [h0, h1, h2, h3]
  norm_num

theorem lfh_version (m c nl xl : Nat) (r : List Nat) :
    getU16 (localFileHeader m c nl xl ++ r) 4 = 45 := rfl

theorem lfh_flags (m c nl xl : Nat) (r : List Nat) :
    getU16 (localFileHeader m c nl xl ++ r) 6 = 0 := rfl

theorem lfh_method (m c nl xl : Nat) (r : List Nat) :
    getU16 (localFileHeader m c nl xl ++ r) 8 = m % 2 ^ 16 := by
  show m % 256 + 256 * (m / 256 % 256) = m % 2 ^ 16
  omega

theorem lfh_crc (m c nl xl : Nat) (r : List Nat) :
    getU32 (localFileHeader m c nl xl ++ r) 14 = c % 2 ^ 32 := by
  show c % 256 + 256 * (c / 256 % 256) + 256 ^ 2 * (c / 256 ^ 2 % 256)
      + 256 ^ 3 * (c / 256 ^ 3 % 256) = c % 2 ^ 32
  omega

theorem lfh_csize32 (m c nl xl : Nat) (r : List Nat) :
    getU32 (localFileHeader m c nl xl ++ r) 18 = 0xffffffff := by
  have h0 : getU8 (localFileHeader m c nl xl ++ r) 18 = 255 := rfl
  have h1 : getU8 (localFileHeader m c nl xl ++ r) 19 = 255 := rfl
  have h2 : getU8 (localFileHeader m c nl xl ++ r) 20 = 255 := rfl
  have h3 : getU8 (localFileHeader m c nl xl ++ r) 21 = 255 := rfl
  show getU8 (localFileHeader m c nl xl ++ r) 18 + 256 * getU8 (localFileHeader m c nl xl ++ r) 19
    + 256 ^ 2 * getU8 (localFileHeader m c nl xl ++ r) 20
    + 256 ^ 3 * getU8 (localFileHeader m c nl xl ++ r) 21 = 0xffffffff
  rw [h0, h1, h2, h3]
  norm_num

theorem lfh_usize32 (m c nl xl : Nat) (r : List Nat) :
    getU32 (localFileHeader m c nl xl ++ r) 22 = 0xffffffff := by
  have h0 : getU8 (localFileHeader m c nl xl ++ r) 22 = 255 := rfl
  have h1 : getU8 (localFileHeader m c nl xl ++ r) 23 = 255 := rfl
  have h2 : getU8 (localFileHeader m c nl xl ++ r) 24 = 255 := rfl
  have h3 : getU8 (localFileHeader m c nl xl ++ r) 25 = 255 := rfl
  show getU8 (localFileHeader m c nl xl ++ r) 22 + 256 * getU8 (localFileHeader m c nl xl ++ r) 23
    + 256 ^ 2 * getU8 (localFileHeader m c nl xl ++ r) 24
    + 256 ^ 3 * getU8 (localFileHeader m c nl xl ++ r) 25 = 0xffffffff
  rw [h0, h1, h2, h3]
  norm_num

theorem lfh_nameLen (m c nl xl : Nat) (r : List Nat) :
    getU16 (localFileHeader m c nl xl ++ r) 26 = nl % 2 ^ 16 := by
  show nl % 256 + 256 * (nl / 256 % 256) = nl % 2 ^ 16
  omega

theorem lfh_extraLen (m c nl xl : Nat) (r : List Nat) :
    getU16 (localFileHeader m c nl xl ++ r) 28 = xl % 2 ^ 16 := by
  show xl % 256 + 256 * (xl / 256 % 256) = xl % 2 ^ 16
  omega

theorem lfh_drop30 (m c nl xl : Nat) (r : List Nat) :
    (localFileHeader m c nl xl ++ r).drop 30 = r := rfl

theorem entryExtraField_length_le (e : WriteEntry) : (entryExtraField e).length ≤ 37 := by
  rw [entryExtraField_eq]
  have h1 : (zip64Record e none).length = 20 := rfl
  have h2 : (tsRecordOpt (entryTs e)).length ≤ 17 := by
    cases hts : entryTs e with
    | none => simp [tsRecordOpt]
    | some t =>
      have := tsPayload_length_le t
      simp [tsRecordOpt, tsRecord, u16LE]
      omega
  simp only [List.length_append, h1]
  omega

theorem entryMethod_lt (e : WriteEntry) : entryMethod e < 2 ^ 16 := by
  unfold entryMethod
  split <;> omega

theorem wf_facts (e : WriteEntry) (h : wfEntry e = true) :
    (entryName e).length < 2 ^ 16 ∧ entryCrc e < 2 ^ 32 ∧ entryOriginalSize e < 2 ^ 64
    ∧ entryCompressedSize e < 2 ^ 64 ∧ tsRangeOk (entryTs e) = true
    ∧ (entryStream e).length = entryCompressedSize e := by
  cases e with
  | directory name ts =>
    simp only [wfEntry, Bool.and_eq_true, decide_eq_true_eq] at h
    simp only [entryName, entryCrc, entryOriginalSize, entryCompressedSize, entryTs, entryStream]
    refine ⟨?_, ?_, ?_, ?_, ?_, ?_⟩ <;> first | tauto | norm_num
  | file name ts body =>
    cases body with
    | stored os crc s =>
      simp only [wfEntry, Bool.and_eq_true, decide_eq_true_eq] at h
      simp only [entryName, entryCrc, entryOriginalSize, entryCompressedSize, entryTs, entryStream]
      refine ⟨?_, ?_, ?_, ?_, ?_, ?_⟩ <;> tauto
    | deflate os cs crc s =>
      simp only [wfEntry, Bool.and_eq_true, decide_eq_true_eq] at h
      simp only [entryName, entryCrc, entryOriginalSize, entryCompressedSize, entryTs, entryStream]
      refine ⟨?_, ?_, ?_, ?_, ?_, ?_⟩ <;> tauto

theorem parseLocalEntry_entryBytes (e : WriteEntry) (h : wfEntry e = true) (rest : List Nat) :
    parseLocalEntry (entryBytes e ++ rest) = .ok (toREntry e, rest) := by
  obtain ⟨hname, hcrc, hos, hcs, hts, hslen⟩ := wf_facts e h
  have hshape : entryBytes e ++ rest
      = localFileHeader (entryMethod e) (entryCrc e) (entryName e).length
          (entryExtraField e).length
        ++ (entryName e ++ (entryExtraField e ++ (entryStream e ++ rest))) := by
    simp [entryBytes, entryLocalHeader]
  rw [hshape]
  unfold parseLocalEntry
  rw [lfh_version, lfh_flags, lfh_method, lfh_crc, lfh_csize32, lfh_usize32,
    lfh_nameLen, lfh_extraLen, lfh_drop30,
    Nat.mod_eq_of_lt (entryMethod_lt e), Nat.mod_eq_of_lt hcrc,
    Nat.mod_eq_of_lt hname,
    Nat.mod_eq_of_lt (lt_of_le_of_lt (entryExtraField_length_le e) (by norm_num))]
  simp only [show (0 &&& 1 : Nat) = 0 from by decide, show (0 &&& 64 : Nat) = 0 from by decide,
    show (0 &&& 8 : Nat) = 0 from by decide, show (0 &&& 32 : Nat) = 0 from by decide]
  rw [if_neg (by decide), if_neg (by simp), if_neg (by simp), if_neg (by simp)]
  rw [if_neg (show ¬ (entryName e ++ (entryExtraField e ++ (entryStream e ++ rest))).length
      < (entryName e).length by simp [List.length_append])]
  rw [List.take_left, List.drop_left]
  rw [if_neg (show ¬ (entryExtraField e ++ (entryStream e ++ rest)).length
      < (entryExtraField e).length by simp [List.length_append])]
  rw [List.take_left, List.drop_left]
  rw [parseExtraField_entryExtra e hos hcs hts]
  simp only
  cases e with
  | directory name ts =>
    simp only [wfEntry, Bool.and_eq_true, decide_eq_true_eq] at h
    rw [if_pos (show (entryName (WriteEntry.directory name ts)).getLast? = some 47 from h.1.1)]
    simp [toREntry, entryTs, entryStream, entryCompressedSize, entryName]
  | file name ts body =>
    have hlast : ¬ name.getLast? = some 47 := by
      cases body <;>
        (simp only [wfEntry, Bool.and_eq_true, decide_eq_true_eq] at h; exact h.1.1.1)
    rw [if_neg (by simpa [entryName] using hlast)]
    cases body with
    | stored os crc s =>
      rw [if_neg (by simp [entryMethod, entryIsDeflate])]
      rw [if_neg (show ¬ (entryStream (.file name ts (.stored os crc s)) ++ rest).length
          < entryCompressedSize (.file name ts (.stored os crc s)) by
        simp only [List.length_append, entryStream, entryCompressedSize] at hslen ⊢
        omega)]
      have hs : s.length = os := by simpa [entryStream, entryCompressedSize] using hslen
      simp only [entryStream, entryCompressedSize, entryTs, entryMethod, entryIsDeflate,
        entryOriginalSize, entryCrc, toREntry]
      rw [← hs, List.take_left, List.drop_left]
      rfl
    | deflate os cs crc s =>
      rw [if_neg (by simp [entryMethod, entryIsDeflate])]
      rw [if_neg (show ¬ (entryStream (.file name ts (.deflate os cs crc s)) ++ rest).length
          < entryCompressedSize (.file name ts (.deflate os cs crc s)) by
        simp only [List.length_append, entryStream, entryCompressedSize] at hslen ⊢
        omega)]
      have hs : s.length = cs := by simpa [entryStream, entryCompressedSize] using hslen
      simp only [entryStream, entryCompressedSize, entryTs, entryMethod, entryIsDeflate,
        entryOriginalSize, entryCrc, toREntry]
      rw [← hs, List.take_left, List.drop_left]
      rfl

theorem entryBytes_length (e : WriteEntry) :
    (entryBytes e).length
      = 30 + (entryName e).length + (entryExtraField e).length + (entryStream e).length := by
  simp [entryBytes, entryLocalHeader, localFileHeader, u32LE, u16LE]
  omega

theorem toInt32_local_sig : toInt32 0x04034b50 = 0x04034b50 := by
  norm_num [toInt32]

theorem toInt32_central_sig : toInt32 0x02014b50 = 0x02014b50 := by
  norm_num [toInt32]

theorem readLoopF_succ (fuel : Nat) (bytes : List Nat) :
    readLoopF (fuel + 1) bytes =
      if bytes.isEmpty then .ok []
      else if bytes.length < 30 then .error .unexpectedEnd
      else if toInt32 (getU32 bytes 0) = 0x02014b50 then .ok []
      else if toInt32 (getU32 bytes 0) ≠ 0x04034b50 then .error .badSignature
      else match parseLocalEntry bytes with
        | .error e => .error e
        | .ok (entry, rest) =>
          match readLoopF fuel rest with
          | .error e => .error e
          | .ok es => .ok (entry :: es) := rfl

theorem readLoopF_entry (e : WriteEntry) (h : wfEntry e = true) (fuel : Nat)
    (rest : List Nat) :
    readLoopF (fuel + 1) (entryBytes e ++ rest)
      = (readLoopF fuel rest).map (toREntry e :: ·) := by
  have hlen : 30 ≤ (entryBytes e ++ rest).length := by
    simp [List.length_append, entryBytes_length e]
    omega
  have hshape : entryBytes e ++ rest
      = localFileHeader (entryMethod e) (entryCrc e) (entryName e).length
          (entryExtraField e).length
        ++ (entryName e ++ (entryExtraField e ++ (entryStream e ++ rest))) := by
    simp [entryBytes, entryLocalHeader]
  have hsig : toInt32 (getU32 (entryBytes e ++ rest) 0) = 0x04034b50 := by
    rw [hshape, lfh_sig]
    exact toInt32_local_sig
  have hne : ¬ (entryBytes e ++ rest).isEmpty = true := by
    simp only [List.isEmpty_eq_true]
    intro hemp
    rw [hemp] at hlen
    simp at hlen
  rw [readLoopF_succ, if_neg hne, if_neg (by omega), hsig, if_neg (by norm_num),
    if_neg (by norm_num), parseLocalEntry_entryBytes e h rest]
  cases hr : readLoopF fuel rest <;> simp [hr, Except.map]

theorem writeLocalFileEntry_ok (e : WriteEntry) (h : wfEntry e = true) :
    writeLocalFileEntry e = .ok (entryBytes e) := by
  obtain ⟨hname, _, _, _, _, hslen⟩ := wf_facts e h
  cases e with
  | directory name ts =>
    simp only [writeLocalFileEntry]
    rw [if_neg (by omega)]
  | file name ts body =>
    simp only [writeLocalFileEntry]
    rw [if_neg (by omega), if_neg (by omega), if_neg (by omega)]

/-- The lfh-offset-indexed list of central-directory blocks `write()`
accumulates. -/
def centralsOf : List WriteEntry → Nat → List (List Nat)
  | [], _ => []
  | e :: rest, offset => centralBytes e offset :: centralsOf rest (offset + (entryBytes e).length)

theorem writeEntries_ok (entries : List WriteEntry) (offset : Nat)
    (h : ∀ e ∈ entries, wfEntry e = true) :
    writeEntries entries offset
      = .ok ((entries.map entryBytes).flatten, centralsOf entries offset) := by
  induction entries generalizing offset with
  | nil => simp [writeEntries, centralsOf]
  | cons e rest ih =>
    have he := h e (by simp)
    simp only [writeEntries, writeLocalFileEntry_ok e he, centralsOf]
    rw [ih (offset + (entryBytes e).length) (fun x hx => h x (by simp [hx]))]
    simp

theorem cfh_sig (e : WriteEntry) (o : Nat) (r : List Nat) :
    getU32 (centralFileHeader e o ++ r) 0 = 0x02014b50 := by
  have h0 : getU8 (centralFileHeader e o ++ r) 0 = 80 := rfl
  have h1 : getU8 (centralFileHeader e o ++ r) 1 = 75 := rfl
  have h2 : getU8 (centralFileHeader e o ++ r) 2 = 1 := rfl
  have h3 : getU8 (centralFileHeader e o ++ r) 3 = 2 := rfl
  show getU8 (centralFileHeader e o ++ r) 0 + 256 * getU8 (centralFileHeader e o ++ r) 1
    + 256 ^ 2 * getU8 (centralFileHeader e o ++ r) 2
    + 256 ^ 3 * getU8 (centralFileHeader e o ++ r) 3 = 0x02014b50
  rw [h0, h1, h2, h3]
  norm_num

theorem centralFileHeader_length (e : WriteEntry) (o : Nat) :
    (centralFileHeader e o).length = 46 := rfl

theorem readLoopF_nil (g : Nat) : readLoopF (g + 1) [] = .ok [] := by
  simp [readLoopF]

theorem readLoopF_centralBlock (e : WriteEntry) (o : Nat) (x : List Nat) (g : Nat) :
    readLoopF (g + 1) (centralBytes e o ++ x) = .ok [] := by
  have hshape : centralBytes e o ++ x
      = centralFileHeader e o ++ (entryName e ++ ((createExtraField e (some o)).getD [] ++ x)) := by
    simp [centralBytes]
  have hlen : 30 ≤ (centralBytes e o ++ x).length := by
    rw [hshape]
    simp [List.length_append, centralFileHeader_length]
    omega
  have hsig : toInt32 (getU32 (centralBytes e o ++ x) 0) = 0x02014b50 := by
    rw [hshape, cfh_sig]
    exact toInt32_central_sig
  have hne : ¬ (centralBytes e o ++ x).isEmpty = true := by
    simp only [List.isEmpty_eq_true]
    intro hemp
    rw [hemp] at hlen
    simp at hlen
  rw [readLoopF_succ, if_neg hne, if_neg (by omega), hsig, if_pos (by norm_num)]

theorem entries_length_le (entries : List WriteEntry) :
    entries.length ≤ ((entries.map entryBytes).flatten).length := by
  induction entries with
  | nil => simp
  | cons e rest ih =>
    simp only [List.map_cons, List.flatten_cons, List.length_append, List.length_cons]
    have : 1 ≤ (entryBytes e).length := by
      rw [entryBytes_length e]
      omega
    omega

theorem readLoopF_concat (entries : List WriteEntry) :
    ∀ (fuel : Nat) (tail : List Nat),
    (∀ e ∈ entries, wfEntry e = true) → entries.length < fuel →
    (∀ g, readLoopF (g + 1) tail = .ok []) →
    readLoopF fuel ((entries.map entryBytes).flatten ++ tail)
      = .ok (entries.map toREntry) := by
  induction entries with
  | nil =>
    intro fuel tail _ hfuel htail
    cases fuel with
    | zero => omega
    | succ g => simpa using htail g
  | cons e rest ih =>
    intro fuel tail hwf hfuel htail
    cases fuel with
    | zero => simp at hfuel
    | succ g =>
      have hx : ((e :: rest).map entryBytes).flatten ++ tail
          = entryBytes e ++ ((rest.map entryBytes).flatten ++ tail) := by
        simp
      rw [hx, readLoopF_entry e (hwf e (by simp)) g,
        ih g tail (fun x hx => hwf x (by simp [hx])) (by simp at hfuel; omega) htail]
      simp [Except.map]

/-- C1 counterexample.  `write()` accepts the empty sequence of entries,
but with the central directory included (the default) its output starts
with the ZIP64 end-of-central-directory record, whose signature
`0x06064b50` is neither a local-file-header nor a central-directory
signature, so `read()` fails with *BadSignature* instead of yielding the
empty sequence of entries. -/
theorem zip_roundtrip_empty_cex : roundTrip [] false = .error .badSignature := rfl

/-- Claim C1 (amended): for every *nonempty* sequence of well-formed write
entries that `write()` accepts — and for every sequence including the
empty one when `omitCentralDirectory` is set — piping the byte stream
produced by `write()` into `read()` yields the same number of entries in
the same order, where each entry's name, extended timestamps and
`originalSize` equal the original's, each file entry's `crc` equals the
original `originalCrc`, its compression method is the one the writer
declared, and its on-wire body bytes equal the original body stream
(hence, after the method-8 black-box decompression `decodedBody` applies
exactly where `read()` does, a stored body equals the original content
and a deflate body is the decompression of exactly the supplied
pre-deflated bytes).  The empty sequence with a central directory fails
with *BadSignature* (`zip_roundtrip_empty_cex`). -/
theorem zip_write_read_roundtrip (entries : List WriteEntry) (omitCD : Bool)
    (hwf : ∀ e ∈ entries, wfEntry e = true)
    (hne : entries ≠ [] ∨ omitCD = true) :
    roundTrip entries omitCD = .ok (entries.map toREntry) := by
  cases omitCD with
  | true =>
    have hw : write entries true = .ok ((entries.map entryBytes).flatten) := by
      simp [write, writeEntries_ok entries 0 hwf]
    simp only [roundTrip, hw, readAll]
    rw [← List.append_nil ((entries.map entryBytes).flatten)]
    refine readLoopF_concat entries _ [] hwf ?_ (fun g => readLoopF_nil g)
    have := entries_length_le entries
    simp only [List.append_nil]
    omega
  | false =>
    have hw : write entries false
        = .ok ((entries.map entryBytes).flatten
            ++ ((centralsOf entries 0).flatten
              ++ endingBytes entries.length (centralsOf entries 0).flatten.length
                  (entries.map entryBytes).flatten.length)) := by
      simp [write, writeEntries_ok entries 0 hwf]
    simp only [roundTrip, hw, readAll]
    refine readLoopF_concat entries _ _ hwf ?_ ?_
    · have := entries_length_le entries
      simp only [List.length_append]
      omega
    · intro g
      cases entries with
      | nil => simp at hne
      | cons e rest =>
        have hcd : (centralsOf (e :: rest) 0).flatten
            ++ endingBytes (e :: rest).length (centralsOf (e :: rest) 0).flatten.length
                ((e :: rest).map entryBytes).flatten.length
            = centralBytes e 0
              ++ ((centralsOf rest (0 + (entryBytes e).length)).flatten
                ++ endingBytes (e :: rest).length (centralsOf (e :: rest) 0).flatten.length
                    ((e :: rest).map entryBytes).flatten.length) := by
          simp [centralsOf]
        rw [hcd, readLoopF_centralBlock]

/-- Witness for `zip_write_read_roundtrip`: a directory with extended
timestamps, a stored file, and a deflate-precompressed file round-trip
exactly (cf. the spec's scenario S4). -/
theorem zip_write_read_roundtrip_witness :
    roundTrip [WriteEntry.directory [100, 47] (some ⟨some 5, none, some (-3)⟩),
      WriteEntry.file [97] none (.stored 3 7 [10, 20, 30]),
      WriteEntry.file [98] (some ⟨none, some 12, none⟩) (.deflate 10 4 99 [1, 2, 3, 4])] false
      = .ok [REntry.directory [100, 47] (some ⟨some 5, none, some (-3)⟩),
          REntry.file [97] none 3 3 7 0 [10, 20, 30],
          REntry.file [98] (some ⟨none, some 12, none⟩) 10 4 99 8 [1, 2, 3, 4]] :=
  zip_write_read_roundtrip
    [WriteEntry.directory [100, 47] (some ⟨some 5, none, some (-3)⟩),
      WriteEntry.file [97] none (.stored 3 7 [10, 20, 30]),
      WriteEntry.file [98] (some ⟨none, some 12, none⟩) (.deflate 10 4 99 [1, 2, 3, 4])]
    false (by decide) (by simp)

/-- Claim C6: at each iteration of the reader's parse loop, on the
remaining input `bytes`: a zero-byte header request (empty input) ends
`read()` cleanly; a header of fewer than 30 bytes fails *UnexpectedEnd*;
a central-directory signature (`0x02014b50`, read as a little-endian
signed 32-bit value at offset 0) terminates the loop cleanly; any
signature that is neither `0x04034b50` nor `0x02014b50` fails
*BadSignature*. -/
theorem readLoop_header_dispatch (bytes : List Nat) :
    (bytes = [] → readAll bytes = .ok [])
    ∧ (0 < bytes.length → bytes.length < 30 → readAll bytes = .error .unexpectedEnd)
    ∧ (30 ≤ bytes.length → toInt32 (getU32 bytes 0) = 0x02014b50 → readAll bytes = .ok [])
    ∧ (30 ≤ bytes.length → toInt32 (getU32 bytes 0) ≠ 0x02014b50 →
        toInt32 (getU32 bytes 0) ≠ 0x04034b50 → readAll bytes = .error .badSignature) := by
  unfold readAll
  refine ⟨?_, ?_, ?_, ?_⟩
  · intro h
    subst h
    simp [readLoopF]
  · intro h1 h2
    rw [readLoopF_succ,
      if_neg (by simp only [List.isEmpty_eq_true]; exact List.ne_nil_of_length_pos h1),
      if_pos h2]
  · intro h1 hsig
    rw [readLoopF_succ,
      if_neg (by simp only [List.isEmpty_eq_true]; exact List.ne_nil_of_length_pos (by omega)),
      if_neg (by omega), if_pos hsig]
  · intro h1 hs1 hs2
    rw [readLoopF_succ,
      if_neg (by simp only [List.isEmpty_eq_true]; exact List.ne_nil_of_length_pos (by omega)),
      if_neg (by omega), if_neg hs1, if_pos hs2]

/-- Witness for `readLoop_header_dispatch`: empty input, a 3-byte stub, a
central-directory header start, and 30 zero bytes. -/
theorem readLoop_header_dispatch_witness :
    readAll [] = .ok []
    ∧ readAll [1, 2, 3] = .error .unexpectedEnd
    ∧ readAll [80, 75, 1, 2, 0, 0, 0, 0, 0, 0, 0, 0, 0, 0, 0, 0, 0, 0, 0, 0, 0, 0, 0, 0,
        0, 0, 0, 0, 0, 0] = .ok []
    ∧ readAll [0, 0, 0, 0, 0, 0, 0, 0, 0, 0, 0, 0, 0, 0, 0, 0, 0, 0, 0, 0, 0, 0, 0, 0,
        0, 0, 0, 0, 0, 0] = .error .badSignature := by
  refine ⟨(readLoop_header_dispatch []).1 rfl,
    (readLoop_header_dispatch [1, 2, 3]).2.1 (by decide) (by decide), ?_, ?_⟩
  · exact (readLoop_header_dispatch _).2.2.1 (by decide) (by decide)
  · exact (readLoop_header_dispatch _).2.2.2 (by decide) (by decide) (by decide)

/-! ## The body handle (`src/read.ts` 132-166)

The `OptionalStream` closure over `bodyMethodFinished`: `stream()` checks
the flag, obtains the substream (recording `onConsumed` in the flag), and
only then switches on the compression method — so even a `stream()` call
that throws *UnknownCompressionMethod* marks the handle used.
`autodrain()` checks the flag and records the skip promise.  We model the
flag as a `Bool` (a promise is always truthy; it is set exactly when a
method has been called). -/

inductive BodyCall where
  | stream
  | autodrain
  deriving DecidableEq, Repr

/-- One call on the body handle: the call's outcome and the new state of
`bodyMethodFinished`. -/
def bodyInvoke (method : Nat) : BodyCall → Bool → Except ZErr Unit × Bool
  | .stream, used =>
    if used then (.error .bodyAlreadyUsed, used)
    else if method = 0 then (.ok (), true)
    else if method = 8 then (.ok (), true)
    else (.error .unknownCompressionMethod, true)
  | .autodrain, used =>
    if used then (.error .bodyAlreadyUsed, used)
    else (.ok (), true)

/-- A sequence of calls on one handle: all outcomes and the final flag. -/
def bodyInvokeAll (method : Nat) : List BodyCall → Bool → List (Except ZErr Unit) × Bool
  | [], used => ([], used)
  | c :: cs, used =>
    let r := bodyInvoke method c used
    let rs := bodyInvokeAll method cs r.2
    (r.1 :: rs.1, rs.2)

theorem bodyInvoke_used (method : Nat) (c : BodyCall) :
    bodyInvoke method c true = (.error .bodyAlreadyUsed, true) := by
  cases c <;> simp [bodyInvoke]

theorem bodyInvoke_sets_used (method : Nat) (c : BodyCall) :
    (bodyInvoke method c false).2 = true := by
  cases c <;> simp only [bodyInvoke] <;> split_ifs <;> simp_all

theorem bodyInvokeAll_used (method : Nat) (calls : List BodyCall) :
    bodyInvokeAll method calls true
      = (calls.map (fun _ => .error .bodyAlreadyUsed), true) := by
  induction calls with
  | nil => simp [bodyInvokeAll]
  | cons c cs ih => simp [bodyInvokeAll, bodyInvoke_used, ih]

/-- Claim C7: on every body handle yielded by `read()`, at most one of
`stream()` and `autodrain()` can succeed: once either has been called
(successfully or not), every later call to either method on the same
handle fails with *BodyAlreadyUsed*; over any call sequence on a fresh
handle, at most one call returns successfully. -/
theorem bodyHandle_single_use :
    (∀ (method : Nat) (c c' : BodyCall),
        (bodyInvoke method c' (bodyInvoke method c false).2).1 = .error .bodyAlreadyUsed)
    ∧ (∀ (method : Nat) (calls : List BodyCall) (c : BodyCall), calls ≠ [] →
        (bodyInvoke method c (bodyInvokeAll method calls false).2).1
          = .error .bodyAlreadyUsed)
    ∧ (∀ (method : Nat) (calls : List BodyCall),
        ((bodyInvokeAll method calls false).1.countP (fun r => r.isOk)) ≤ 1) := by
  refine ⟨?_, ?_, ?_⟩
  · intro method c c'
    rw [bodyInvoke_sets_used, bodyInvoke_used]
  · intro method calls c hne
    cases calls with
    | nil => simp at hne
    | cons c0 cs =>
      have h : (bodyInvokeAll method (c0 :: cs) false).2 = true := by
        simp only [bodyInvokeAll, bodyInvoke_sets_used, bodyInvokeAll_used]
      rw [h, bodyInvoke_used]
  · intro method calls
    cases calls with
    | nil => simp [bodyInvokeAll]
    | cons c0 cs =>
      simp only [bodyInvokeAll, bodyInvoke_sets_used, bodyInvokeAll_used]
      rw [List.countP_cons]
      have hzero : (cs.map (fun _ => (.error .bodyAlreadyUsed : Except ZErr Unit))).countP
          (fun r => r.isOk) = 0 := by
        rw [List.countP_eq_zero]
        intro r hr
        simp only [List.mem_map] at hr
        obtain ⟨_, _, hr⟩ := hr
        subst hr
        simp [Except.isOk, Except.toBool]
      rw [hzero]
      split <;> omega

/-- Witness for `bodyHandle_single_use` (the second and third parts carry
hypotheses): after `stream()` on a method-0 handle, `autodrain()` fails
*BodyAlreadyUsed*; a `stream(); autodrain(); stream()` run has exactly
one success. -/
theorem bodyHandle_single_use_witness :
    (bodyInvoke 0 .autodrain (bodyInvoke 0 .stream false).2).1 = .error .bodyAlreadyUsed
    ∧ (bodyInvoke 0 .stream (bodyInvokeAll 0 [.stream, .autodrain] false).2).1
        = .error .bodyAlreadyUsed
    ∧ ((bodyInvokeAll 0 [.stream, .autodrain, .stream] false).1.countP
        (fun r => r.isOk)) ≤ 1 :=
  ⟨bodyHandle_single_use.1 0 .stream .autodrain,
    bodyHandle_single_use.2.1 0 [.stream, .autodrain] .stream (by simp),
    bodyHandle_single_use.2.2 0 [.stream, .autodrain, .stream]⟩

/-- Does the entry set any of the three extended timestamps? -/
def tsAnySet : Option ExtendedTimestamps → Bool
  | none => false
  | some t => t.modifyTime.isSome || t.accessTime.isSome || t.createTime.isSome

/-- Claim C8: for every write entry, the writer's local file header is 30
bytes with version-needed 45, compression method 8 exactly for a
deflate-precompressed body and 0 otherwise, the CRC-32 field holding the
entry's `originalCrc` (the zero fill for directories), and both 32-bit
size fields holding the ZIP64 sentinel `0xffffffff`; the real sizes are
recorded only in the extra field, whose ZIP64 record (tag `0x0001`,
length 16 in a local header and 24 in a central header) comes first and
carries `originalSize` then `compressedSize`, followed by the
extended-timestamp record (tag `0x5455`) whenever any of
modify/access/create is set. -/
theorem localHeader_layout (e : WriteEntry) (off : Nat)
    (hcrc : entryCrc e < 2 ^ 32) (hos : entryOriginalSize e < 2 ^ 64)
    (hcs : entryCompressedSize e < 2 ^ 64) :
    (entryLocalHeader e).length = 30
    ∧ getU16 (entryLocalHeader e) 4 = 45
    ∧ getU16 (entryLocalHeader e) 8 = (if entryIsDeflate e then 8 else 0)
    ∧ getU32 (entryLocalHeader e) 14 = entryCrc e
    ∧ getU32 (entryLocalHeader e) 18 = 0xffffffff
    ∧ getU32 (entryLocalHeader e) 22 = 0xffffffff
    ∧ createExtraField e none = some (zip64Record e none ++ tsRecordOpt (entryTs e))
    ∧ createExtraField e (some off) = some (zip64Record e (some off) ++ tsRecordOpt (entryTs e))
    ∧ getU16 (zip64Record e none) 0 = 0x0001
    ∧ getU16 (zip64Record e none) 2 = 16
    ∧ getU16 (zip64Record e (some off)) 0 = 0x0001
    ∧ getU16 (zip64Record e (some off)) 2 = 24
    ∧ getU64 (zip64Record e none) 4 = entryOriginalSize e
    ∧ getU64 (zip64Record e none) 12 = entryCompressedSize e
    ∧ (tsAnySet (entryTs e) = true → getU16 (tsRecordOpt (entryTs e)) 0 = 0x5455) := by
  have hz1 : getU16 (zip64Record e none) 0 = 1 := by
    simp [zip64Record, u16LE, getU16, getU8]
  have hz2 : getU16 (zip64Record e none) 2 = 16 := by
    simp [zip64Record, u16LE, getU16, getU8]
  have hz3 : getU16 (zip64Record e (some off)) 0 = 1 := by
    simp [zip64Record, u16LE, getU16, getU8]
  have hz4 : getU16 (zip64Record e (some off)) 2 = 24 := by
    simp [zip64Record, u16LE, getU16, getU8]
  refine ⟨rfl, lfh_version _ _ _ _ [], ?_, ?_, lfh_csize32 _ _ _ _ [], lfh_usize32 _ _ _ _ [],
    createExtraField_eq e none, createExtraField_eq e (some off), hz1, hz2, hz3, hz4,
    ?_, ?_, ?_⟩
  · exact (lfh_method (entryMethod e) (entryCrc e) (entryName e).length
      (entryExtraField e).length []).trans (Nat.mod_eq_of_lt (entryMethod_lt e))
  · exact (lfh_crc (entryMethod e) (entryCrc e) (entryName e).length
      (entryExtraField e).length []).trans (Nat.mod_eq_of_lt hcrc)
  · exact (getU64_u64LE (entryOriginalSize e)
      (u64LE (entryCompressedSize e) ++ [])).trans (Nat.mod_eq_of_lt hos)
  · exact (getU64_u64LE (entryCompressedSize e) []).trans (Nat.mod_eq_of_lt hcs)
  · intro h
    cases hts : entryTs e with
    | none => rw [hts] at h; simp [tsAnySet] at h
    | some t => rfl

/-- A sample deflate-precompressed entry with an extended timestamp. -/
def sampleDeflateEntry : WriteEntry :=
  .file [97] (some ⟨some 5, none, none⟩) (.deflate 10 4 99 [1, 2, 3, 4])

/-- Witness for `localHeader_layout` at a concrete deflate entry and
central-header offset 5. -/
theorem localHeader_layout_witness :
    (entryLocalHeader sampleDeflateEntry).length = 30
    ∧ getU16 (entryLocalHeader sampleDeflateEntry) 4 = 45
    ∧ getU16 (entryLocalHeader sampleDeflateEntry) 8
        = (if entryIsDeflate sampleDeflateEntry then 8 else 0)
    ∧ getU32 (entryLocalHeader sampleDeflateEntry) 14 = entryCrc sampleDeflateEntry
    ∧ getU32 (entryLocalHeader sampleDeflateEntry) 18 = 0xffffffff
    ∧ getU32 (entryLocalHeader sampleDeflateEntry) 22 = 0xffffffff
    ∧ createExtraField sampleDeflateEntry none
        = some (zip64Record sampleDeflateEntry none ++ tsRecordOpt (entryTs sampleDeflateEntry))
    ∧ createExtraField sampleDeflateEntry (some 5)
        = some (zip64Record sampleDeflateEntry (some 5) ++ tsRecordOpt (entryTs sampleDeflateEntry))
    ∧ getU16 (zip64Record sampleDeflateEntry none) 0 = 0x0001
    ∧ getU16 (zip64Record sampleDeflateEntry none) 2 = 16
    ∧ getU16 (zip64Record sampleDeflateEntry (some 5)) 0 = 0x0001
    ∧ getU16 (zip64Record sampleDeflateEntry (some 5)) 2 = 24
    ∧ getU64 (zip64Record sampleDeflateEntry none) 4 = entryOriginalSize sampleDeflateEntry
    ∧ getU64 (zip64Record sampleDeflateEntry none) 12 = entryCompressedSize sampleDeflateEntry
    ∧ (tsAnySet (entryTs sampleDeflateEntry) = true →
        getU16 (tsRecordOpt (entryTs sampleDeflateEntry)) 0 = 0x5455) :=
  localHeader_layout sampleDeflateEntry 5 (by decide) (by decide) (by decide)

/-- Claim C9: for every write entry (file or directory, with or without
extended timestamps) and for both the local and the central variant,
`createExtraField` returns a defined extra field of at least 20 bytes,
because the ZIP64 record is emitted unconditionally — the `pos === 0`
branch returning `undefined` is unreachable — and hence the extra-field
length field of every emitted local file header is nonzero. -/
theorem createExtraField_always_present (e : WriteEntry) (lfhOffset : Option Nat) :
    (∃ x, createExtraField e lfhOffset = some x ∧ 20 ≤ x.length)
    ∧ 0 < getU16 (entryLocalHeader e) 28 := by
  constructor
  · refine ⟨zip64Record e lfhOffset ++ tsRecordOpt (entryTs e), createExtraField_eq e lfhOffset, ?_⟩
    have hz : 20 ≤ (zip64Record e lfhOffset).length := by
      cases lfhOffset <;> simp [zip64Record, u16LE, u64LE]
    simp only [List.length_append]
    omega
  · have h1 := entryExtraField_length_le e
    have h2 : 20 ≤ (entryExtraField e).length := by
      rw [entryExtraField_eq]
      have hz : (zip64Record e none).length = 20 := rfl
      simp only [List.length_append, hz]
      omega
    have h3 : getU16 (entryLocalHeader e) 28 = (entryExtraField e).length % 2 ^ 16 :=
      lfh_extraLen (entryMethod e) (entryCrc e) (entryName e).length (entryExtraField e).length []
    rw [h3]
    omega

/-- Claim C10: the writer encodes every directory entry with compression
method 0, a zero CRC-32 field, and a ZIP64 extra record carrying
`originalSize = 0` and `compressedSize = 0`; reading the archive back
yields the directory entry after draining its zero-length body (the
remaining input is exactly what followed the entry's bytes). -/
theorem directory_entry_roundtrip (name : List Nat) (ts : Option ExtendedTimestamps)
    (rest : List Nat) (h : wfEntry (.directory name ts) = true) :
    entryMethod (.directory name ts) = 0
    ∧ getU32 (entryLocalHeader (.directory name ts)) 14 = 0
    ∧ getU64 (zip64Record (.directory name ts) none) 4 = 0
    ∧ getU64 (zip64Record (.directory name ts) none) 12 = 0
    ∧ writeLocalFileEntry (.directory name ts) = .ok (entryBytes (.directory name ts))
    ∧ parseLocalEntry (entryBytes (.directory name ts) ++ rest)
        = .ok (.directory name ts, rest) := by
  refine ⟨rfl, ?_, ?_, ?_, writeLocalFileEntry_ok _ h, ?_⟩
  · exact (lfh_crc (entryMethod (.directory name ts)) (entryCrc (.directory name ts))
      (entryName (.directory name ts)).length (entryExtraField (.directory name ts)).length
      []).trans (by simp [entryCrc])
  · exact (getU64_u64LE (entryOriginalSize (.directory name ts))
      (u64LE (entryCompressedSize (.directory name ts)) ++ [])).trans
      (by simp [entryOriginalSize])
  · exact (getU64_u64LE (entryCompressedSize (.directory name ts)) []).trans
      (by simp [entryCompressedSize])
  · exact parseLocalEntry_entryBytes (.directory name ts) h rest

/-- Witness for `directory_entry_roundtrip`: the directory `"d/"` with no
timestamps, followed by two stray bytes. -/
theorem directory_entry_roundtrip_witness :
    entryMethod (.directory [100, 47] none) = 0
    ∧ getU32 (entryLocalHeader (.directory [100, 47] none)) 14 = 0
    ∧ getU64 (zip64Record (.directory [100, 47] none) none) 4 = 0
    ∧ getU64 (zip64Record (.directory [100, 47] none) none) 12 = 0
    ∧ writeLocalFileEntry (.directory [100, 47] none)
        = .ok (entryBytes (.directory [100, 47] none))
    ∧ parseLocalEntry (entryBytes (.directory [100, 47] none) ++ [7, 7])
        = .ok (.directory [100, 47] none, [7, 7]) :=
  directory_entry_roundtrip [100, 47] none [7, 7] (by decide)
